import Mathlib

/-!
# Verification of the spatial-reasoning core of `local_model_poke`

Shallow embedding of the pathfinding / collision-map pipeline of the
repository (files `src/pathfinding_executor.py`, `src/pathfinding.py`,
`src/markdown_vision.py`, `src/collision.py`) together with proofs of the
frozen claims about it.

Modelling conventions:
* Python integers are `Int`; byte values read from emulator memory are `Nat`.
* A Python `set` of coordinate pairs is a `List Pos` used only through
  membership, and a Python `dict` is an association list whose lookup
  returns the most recently inserted binding for a key.
* The `heapq` priority queue is a list popped at its minimum element under
  the lexicographic tuple order that Python uses for the pushed tuples;
  since tuples that compare equal are identical, which minimal copy is
  removed is unobservable, so a list with a min-pop is a faithful model.
* The unbounded `while open_set:` loop is given an explicit fuel argument
  and returns `none` when the fuel runs out; termination (the existence of
  enough fuel for every input) is proved separately.
* `pyboy.memory` is modelled as a total function `Nat → Nat`, so the broad
  `try/except` handlers around memory reads never fire in the model.
-/

set_option maxHeartbeats 1000000
set_option linter.unreachableTactic false
set_option linter.unusedTactic false

abbrev Pos := Int × Int

/-- `manhattan_distance` from `src/pathfinding_executor.py`:
`abs(x1 - x2) + abs(y1 - y2)`. -/
def manhattan_distance (x1 y1 x2 y2 : Int) : Nat :=
  (x1 - x2).natAbs + (y1 - y2).natAbs

/-- Association-list lookup: the most recently consed binding wins,
matching Python dict update semantics when updates are modelled by
consing the new binding on the front. -/
def alLookup {β : Type} : List (Pos × β) → Pos → Option β
  | [], _ => none
  | (k, v) :: t, p => if k = p then some v else alLookup t p

/-- A heap entry `(f_score, g_score, x, y)` as pushed by the Python code. -/
abbrev Entry := Nat × Nat × Int × Int

def ef (e : Entry) : Nat := e.1
def eg (e : Entry) : Nat := e.2.1
def ex (e : Entry) : Int := e.2.2.1
def ey (e : Entry) : Int := e.2.2.2
def epos (e : Entry) : Pos := (e.2.2.1, e.2.2.2)

/-- Lexicographic comparison of heap tuples, as Python compares
`(f_score, g_score, x, y)` tuples of ints. -/
def entryLE (a b : Entry) : Bool :=
  if a.1 ≠ b.1 then decide (a.1 < b.1)
  else if a.2.1 ≠ b.2.1 then decide (a.2.1 < b.2.1)
  else if a.2.2.1 ≠ b.2.2.1 then decide (a.2.2.1 < b.2.2.1)
  else decide (a.2.2.2 ≤ b.2.2.2)

/-- Remove a minimal element (with respect to `le`) from a list: the model of
`heapq.heappop` on a list of fully ordered tuples. -/
def popMinBy {α : Type} (le : α → α → Bool) : List α → Option (α × List α)
  | [] => none
  | e :: es =>
    match popMinBy le es with
    | none => some (e, [])
    | some (m, rest) => if le e m then some (e, es) else some (m, e :: rest)

def popMin (l : List Entry) : Option (Entry × List Entry) := popMinBy entryLE l

/-- The mutable state of the `astar_pathfind` search loop. -/
structure AState where
  openSet : List Entry
  cameFrom : List (Pos × (Pos × String))
  gScore : List (Pos × Nat)

/-- The neighbor list generated for `(x, y)`, in source order
up, down, left, right, each paired with its direction string. -/
def neighborList (x y : Int) : List (Int × Int × String) :=
  [(x, y - 1, "up"), (x, y + 1, "down"), (x - 1, y, "left"), (x + 1, y, "right")]

/-- The push condition of the relaxation step:
`neighbor_pos not in g_score or tentative_g < g_score[neighbor_pos]`. -/
def shouldPush (gS : List (Pos × Nat)) (p : Pos) (t : Nat) : Bool :=
  match alLookup gS p with
  | none => true
  | some g0 => decide (t < g0)

/-- One relaxation step of `astar_pathfind` for a single neighbor
`(nx, ny, direction)` of the popped cell `cur` whose heap tuple carried
g-score `cg`: bounds check, obstacle check, then conditional push. -/
def relax (gx gy : Int) (obstacles : List Pos) (mapW mapH : Int)
    (cg : Nat) (cur : Pos) (s : AState) (nb : Int × Int × String) : AState :=
  if nb.1 < 0 ∨ nb.2.1 < 0 ∨ mapW ≤ nb.1 ∨ mapH ≤ nb.2.1 then s
  else if (nb.1, nb.2.1) ∈ obstacles then s
  else if shouldPush s.gScore (nb.1, nb.2.1) (cg + 1) then
    { openSet := s.openSet ++
        [(cg + 1 + manhattan_distance nb.1 nb.2.1 gx gy, cg + 1, nb.1, nb.2.1)]
      cameFrom := ((nb.1, nb.2.1), (cur, nb.2.2)) :: s.cameFrom
      gScore := ((nb.1, nb.2.1), cg + 1) :: s.gScore }
  else s

/-- Relax all four neighbors of the popped cell, in source order. -/
def relaxAll (gx gy : Int) (obstacles : List Pos) (mapW mapH : Int)
    (cg : Nat) (cur : Pos) (s : AState) : AState :=
  (neighborList cur.1 cur.2).foldl (relax gx gy obstacles mapW mapH cg cur) s

/-- `reconstruct_path` from `src/pathfinding_executor.py`.  The Python
`while current in came_from` loop appends each direction and stops after
stepping onto `start`; consing on the accumulator and skipping the final
`reverse` produces the same list.  The fuel argument bounds the walk; the
caller passes more fuel than any chain the search can build. -/
def reconstruct (fuel : Nat) (cameFrom : List (Pos × (Pos × String)))
    (current start : Pos) (acc : List String) : List String :=
  match fuel with
  | 0 => acc
  | fuel' + 1 =>
    match alLookup cameFrom current with
    | none => acc
    | some (prev, dir) =>
      if prev = start then dir :: acc
      else reconstruct fuel' cameFrom prev start (dir :: acc)

/-- The `while open_set:` loop of `astar_pathfind`.  Returns `none` when
the fuel runs out before the loop does. -/
def astarLoop (gx gy : Int) (obstacles : List Pos) (mapW mapH : Int)
    (start : Pos) : Nat → AState → Option (List String)
  | 0, _ => none
  | fuel + 1, s =>
    match popMin s.openSet with
    | none => some []
    | some (e, rest) =>
      if epos e = (gx, gy) then
        some (reconstruct (s.cameFrom.length + 1) s.cameFrom (epos e) start [])
      else
        astarLoop gx gy obstacles mapW mapH start fuel
          (relaxAll gx gy obstacles mapW mapH (eg e)
            (epos e) { s with openSet := rest })

/-- `astar_pathfind` from `src/pathfinding_executor.py`, with an explicit
fuel bound for the search loop.  The goal-obstacle and goal-bounds checks
happen before the loop starts, exactly as in the source. -/
def astar_pathfind (fuel : Nat) (start_x start_y goal_x goal_y : Int)
    (obstacles : List Pos) (map_width map_height : Int) : Option (List String) :=
  if (goal_x, goal_y) ∈ obstacles then some []
  else if goal_x < 0 ∨ goal_y < 0 ∨ map_width ≤ goal_x ∨ map_height ≤ goal_y then some []
  else
    astarLoop goal_x goal_y obstacles map_width map_height (start_x, start_y) fuel
      ⟨[(0, 0, start_x, start_y)], [], [((start_x, start_y), 0)]⟩

/-- Applying a direction string to a position; unknown strings leave the
position unchanged. -/
def applyMove (p : Pos) (d : String) : Pos :=
  if d = "up" then (p.1, p.2 - 1)
  else if d = "down" then (p.1, p.2 + 1)
  else if d = "left" then (p.1 - 1, p.2)
  else if d = "right" then (p.1 + 1, p.2) else p

def dirList : List String := ["up", "down", "left", "right"]

/-- Position is inside `[0, W) × [0, H)`. -/
def inBoundsB (mapW mapH : Int) (p : Pos) : Bool :=
  decide (0 ≤ p.1) && decide (p.1 < mapW) && decide (0 ≤ p.2) && decide (p.2 < mapH)

/-- Position is in bounds and not an obstacle. -/
def okPosB (obstacles : List Pos) (mapW mapH : Int) (p : Pos) : Bool :=
  inBoundsB mapW mapH p && decide (p ∉ obstacles)

/-- Replaying a move list from `a`: every move is one of the four cardinal
directions and every visited position (after each move) is in bounds and
not an obstacle. -/
def walkOk (obstacles : List Pos) (mapW mapH : Int) : Pos → List String → Bool
  | _, [] => true
  | a, d :: ds =>
    decide (d ∈ dirList) && okPosB obstacles mapW mapH (applyMove a d)
      && walkOk obstacles mapW mapH (applyMove a d) ds

/-- The end position of replaying a move list. -/
def replayEnd (a : Pos) (ms : List String) : Pos := ms.foldl applyMove a

/-- A safe cardinal-move path from `a` to `b`. -/
def replayOk (obstacles : List Pos) (mapW mapH : Int) (a : Pos) (ms : List String)
    (b : Pos) : Bool :=
  walkOk obstacles mapW mapH a ms && decide (replayEnd a ms = b)

/-! ## Path summarizers -/

/-- The run-length grouping loop shared verbatim by `simplify_path`
(`src/pathfinding_executor.py`) and `format_path_instructions`
(`src/pathfinding.py`): walk the path with a current direction and count,
flushing `(count, current_dir)` on each direction change and at the end.
The Python guard `if current_dir:` is falsy for `None` and for the empty
string, which the `Option String` state and the emptiness test reproduce. -/
def groupsLoop : List String → Option String → Nat → List (Nat × String) →
    List (Nat × String)
  | [], cur, count, acc =>
    match cur with
    | some c => if c = "" then acc else acc ++ [(count, c)]
    | none => acc
  | d :: ds, cur, count, acc =>
    if some d = cur then groupsLoop ds cur (count + 1) acc
    else
      match cur with
      | some c =>
        if c = "" then groupsLoop ds (some d) 1 acc
        else groupsLoop ds (some d) 1 (acc ++ [(count, c)])
      | none => groupsLoop ds (some d) 1 acc

/-- `simplify_path` from `src/pathfinding_executor.py`:
`["up","up","up","right","right"] ↦ "3 up, then 2 right"`. -/
def simplify_path (path : List String) : String :=
  if path = [] then "No path"
  else
    String.intercalate ", then "
      ((groupsLoop path none 0 []).map fun g => toString g.1 ++ " " ++ g.2)

/-- `format_path_instructions` from `src/pathfinding.py`:
`["right","right","up"] ↦ "Go RIGHT 2 times, then UP 1 time"`. -/
def format_path_instructions (path : List String) : String :=
  if path = [] then "You are at the exit!"
  else
    "Go " ++ String.intercalate ", then "
      ((groupsLoop path none 0 []).map fun g =>
        g.2.toUpper ++ " " ++ toString g.1 ++ " time" ++ (if 1 < g.1 then "s" else ""))

/-- Modelled from the spec: the path-expansion inverse of the run-length
summary, "used only in tests" and not present under `src/` — expanding the
summary repeats each direction its stated count, in order. -/
def expandGroups (gs : List (Nat × String)) : List String :=
  gs.foldr (fun g acc => List.replicate g.1 g.2 ++ acc) []

/-! ## `get_path_to_exit` (`src/pathfinding.py`) -/

/-- The first `while current_x != exit_x` loop of `get_path_to_exit`:
step toward `ex` one column at a time, recording `"right"` or `"left"`. -/
def pathHoriz (cx ex : Int) : List String :=
  if h : cx = ex then []
  else if cx < ex then "right" :: pathHoriz (cx + 1) ex
  else "left" :: pathHoriz (cx - 1) ex
termination_by (ex - cx).natAbs
decreasing_by
  · omega
  · omega

/-- The second `while current_y != exit_y` loop of `get_path_to_exit`. -/
def pathVert (cy ey : Int) : List String :=
  if h : cy = ey then []
  else if cy < ey then "down" :: pathVert (cy + 1) ey
  else "up" :: pathVert (cy - 1) ey
termination_by (ey - cy).natAbs
decreasing_by
  · omega
  · omega

/-- `get_path_to_exit` from `src/pathfinding.py`: all horizontal moves,
then all vertical moves; no collision or entity data is consulted. -/
def get_path_to_exit (player_x player_y exit_x exit_y : Int) : List String :=
  pathHoriz player_x exit_x ++ pathVert player_y exit_y

/-! ## Collision model (`src/collision.py`, `src/markdown_vision.py`) -/

/-- `is_direction_walkable` from `src/collision.py`: walkable exactly for
the clear sentinel `0x00`. -/
def is_direction_walkable (collision_value : Nat) : Bool :=
  decide (collision_value = 0)

/-- A value stored in the Python collision map: `True`/`False` for
blocked/walkable, or the string `'unknown'`. -/
inductive TileVal : Type
  | b (blocked : Bool)
  | unknown
deriving DecidableEq, Repr

/-- Python truthiness of a collision-map value: `True` and the non-empty
string `'unknown'` are truthy, `False` is falsy. -/
def truthy : TileVal → Bool
  | .b v => v
  | .unknown => true

abbrev CMap := List (Pos × TileVal)

/-- The body of the nested `for dy / for dx` loop of `get_collision_map`
(`src/markdown_vision.py`) for the window cell `(x, y)`: skip cells that
already have data, mark out-of-bounds cells blocked, classify in-bounds
cells through the block/attribute tables when the block index is small
enough, and mark distant cells `'unknown'`. -/
def cmStep (mem : Nat → Nat) (mapW mapH : Int) (m : CMap) (x y : Int) : CMap :=
  if (alLookup m (x, y)).isSome then m
  else if x < 0 ∨ y < 0 ∨ mapW ≤ x ∨ mapH ≤ y then m ++ [((x, y), .b true)]
  else if y * mapW + x < 1024 then
    m ++ [((x, y), .b (decide (mem (0xD3D1 + mem (0xC800 + (y * mapW + x).toNat)) ≠ 0)))]
  else m ++ [((x, y), .unknown)]

/-- The window offsets `-radius .. radius` used by both nested loops. -/
def windowOffsets (radius : Nat) : List Int :=
  (List.range (2 * radius + 1)).map fun i => (i : Int) - (radius : Int)

/-- `get_collision_map` from `src/markdown_vision.py`: the four tiles
adjacent to the reference position are seeded from the real collision
bytes at `0xC2FA..0xC2FD` (`0x00` = walkable, anything else = blocked),
then the window loop fills every other cell, skipping cells that already
have data.  `pyboy.memory` is the total function `mem`, so the
`try/except` fallbacks of the source are dead branches. -/
def get_collision_map (mem : Nat → Nat) (center_x center_y : Int) (radius : Nat)
    (map_width map_height : Int) : CMap :=
  let base : CMap :=
    [((center_x, center_y - 1), .b (decide (mem 0xC2FB ≠ 0))),
     ((center_x, center_y + 1), .b (decide (mem 0xC2FA ≠ 0))),
     ((center_x - 1, center_y), .b (decide (mem 0xC2FC ≠ 0))),
     ((center_x + 1, center_y), .b (decide (mem 0xC2FD ≠ 0)))]
  (windowOffsets radius).foldl
    (fun m dy =>
      (windowOffsets radius).foldl
        (fun m2 dx => cmStep mem map_width map_height m2 (center_x + dx) (center_y + dy))
        m)
    base

/-! ## `calculate_path_from_data` (`src/pathfinding_executor.py`) -/

/-- The `pathfinding_data` dictionary consumed by
`calculate_path_from_data`; `warps` is carried by the data (as built by
`create_pathfinding_data`) but never read by the path calculation. -/
structure PathData where
  playerX : Int
  playerY : Int
  targetX : Int
  targetY : Int
  mapW : Int
  mapH : Int
  warps : List Pos
  npcs : List Pos
  collision_map : CMap

/-- The obstacle set built by `calculate_path_from_data`: NPC positions,
then every collision-map key whose value is truthy (`True` or the string
`'unknown'`).  The Python `set` is modelled by this list through
membership only. -/
def obstaclesOf (d : PathData) : List Pos :=
  d.npcs ++ (d.collision_map.filter fun pv => truthy pv.2).map Prod.fst

/-- The result dictionary of `calculate_path_from_data`. -/
structure PathResult where
  path : List String
  distance : Nat
  success : Bool
  start : Pos
  goal : Pos
  obstacles_count : Nat
deriving DecidableEq, Repr

/-- `calculate_path_from_data` from `src/pathfinding_executor.py`:
build the obstacle set, run `astar_pathfind`, and package the result;
`success` is `len(path) > 0`.  `obstacles_count` is the size of the
Python set, i.e. the number of distinct obstacle positions. -/
def calculate_path_from_data (fuel : Nat) (d : PathData) : Option PathResult :=
  match astar_pathfind fuel d.playerX d.playerY d.targetX d.targetY (obstaclesOf d)
      d.mapW d.mapH with
  | none => none
  | some path =>
    some ⟨path, path.length, decide (0 < path.length), (d.playerX, d.playerY),
      (d.targetX, d.targetY), (obstaclesOf d).dedup.length⟩

/-! ## Direction-ordered tie-breaking variant (spec comparison) -/

/-- A heap entry `(f_score, direction index, g_score, x, y)` for the
specification's tie-breaking rule. -/
abbrev Entry2 := Nat × Nat × Nat × Int × Int

/-- Lexicographic comparison of the five-component tuples. -/
def entry2LE (a b : Entry2) : Bool :=
  if a.1 ≠ b.1 then decide (a.1 < b.1)
  else if a.2.1 ≠ b.2.1 then decide (a.2.1 < b.2.1)
  else if a.2.2.1 ≠ b.2.2.1 then decide (a.2.2.1 < b.2.2.1)
  else if a.2.2.2.1 ≠ b.2.2.2.1 then decide (a.2.2.2.1 < b.2.2.2.1)
  else decide (a.2.2.2.2 ≤ b.2.2.2.2)

/-- The state of the direction-ordered variant. -/
structure AState2 where
  openSet : List Entry2
  cameFrom : List (Pos × (Pos × String))
  gScore : List (Pos × Nat)

/-- The neighbor list with the fixed Direction order index
Up = 0, Down = 1, Left = 2, Right = 3. -/
def neighborList2 (x y : Int) : List (Int × Int × String × Nat) :=
  [(x, y - 1, "up", 0), (x, y + 1, "down", 1), (x - 1, y, "left", 2), (x + 1, y, "right", 3)]

/-- Modelled from the spec: the relaxation step of an A* whose frontier
prefers, among equal-priority (equal `f`) entries, the neighbor generated
earlier in the fixed Direction order Up, Down, Left, Right; the direction
index sits directly after `f` in the heap tuple. -/
def relax2 (gx gy : Int) (obstacles : List Pos) (mapW mapH : Int)
    (cg : Nat) (cur : Pos) (s : AState2) (nb : Int × Int × String × Nat) : AState2 :=
  let nx := nb.1
  let ny := nb.2.1
  let dir := nb.2.2.1
  let di := nb.2.2.2
  if nx < 0 ∨ ny < 0 ∨ mapW ≤ nx ∨ mapH ≤ ny then s
  else if (nx, ny) ∈ obstacles then s
  else if shouldPush s.gScore (nx, ny) (cg + 1) then
    { openSet := s.openSet ++
        [(cg + 1 + manhattan_distance nx ny gx gy, di, cg + 1, nx, ny)]
      cameFrom := ((nx, ny), (cur, dir)) :: s.cameFrom
      gScore := ((nx, ny), cg + 1) :: s.gScore }
  else s

/-- Modelled from the spec: the search loop of the direction-ordered
tie-breaking variant; identical to `astarLoop` except for the heap order. -/
def astarLoop2 (gx gy : Int) (obstacles : List Pos) (mapW mapH : Int)
    (start : Pos) : Nat → AState2 → Option (List String)
  | 0, _ => none
  | fuel + 1, s =>
    match popMinBy entry2LE s.openSet with
    | none => some []
    | some (e, rest) =>
      if (e.2.2.2.1, e.2.2.2.2) = (gx, gy) then
        some (reconstruct (s.cameFrom.length + 1) s.cameFrom (e.2.2.2.1, e.2.2.2.2) start [])
      else
        astarLoop2 gx gy obstacles mapW mapH start fuel
          ((neighborList2 e.2.2.2.1 e.2.2.2.2).foldl
            (relax2 gx gy obstacles mapW mapH e.2.2.1 (e.2.2.2.1, e.2.2.2.2))
            { s with openSet := rest })

/-- Modelled from the spec: `astar_pathfind` with deterministic
tie-breaking "in the fixed Direction order Up, Down, Left, Right" between
equal-priority frontier nodes, as §4.3 of the specification demands. -/
def astarSpecTie (fuel : Nat) (start_x start_y goal_x goal_y : Int)
    (obstacles : List Pos) (map_width map_height : Int) : Option (List String) :=
  if (goal_x, goal_y) ∈ obstacles then some []
  else if goal_x < 0 ∨ goal_y < 0 ∨ map_width ≤ goal_x ∨ map_height ≤ goal_y then some []
  else
    astarLoop2 goal_x goal_y obstacles map_width map_height (start_x, start_y) fuel
      ⟨[(0, 0, 0, start_x, start_y)], [], [((start_x, start_y), 0)]⟩

/-! ## Order facts about heap tuples -/

lemma entryLE_iff (a b : Entry) : entryLE a b = true ↔
    (a.1 < b.1 ∨ (a.1 = b.1 ∧ (a.2.1 < b.2.1 ∨ (a.2.1 = b.2.1 ∧
      (a.2.2.1 < b.2.2.1 ∨ (a.2.2.1 = b.2.2.1 ∧ a.2.2.2 ≤ b.2.2.2)))))) := by
  unfold entryLE
  split_ifs <;> simp_all <;> omega

lemma entryLE_refl (a : Entry) : entryLE a a = true := by
  rw [entryLE_iff]
  omega

lemma entryLE_total (a b : Entry) : entryLE a b = true ∨ entryLE b a = true := by
  rw [entryLE_iff, entryLE_iff]
  omega

lemma entryLE_trans {a b c : Entry} (hab : entryLE a b = true)
    (hbc : entryLE b c = true) : entryLE a c = true := by
  rw [entryLE_iff] at hab hbc ⊢
  omega

lemma entryLE_f {a b : Entry} (h : entryLE a b = true) : a.1 ≤ b.1 := by
  rw [entryLE_iff] at h
  omega

/-! ## Facts about `popMin` -/

lemma popMinBy_none {α : Type} (le : α → α → Bool) (l : List α) :
    popMinBy le l = none ↔ l = [] := by
  cases l with
  | nil => simp [popMinBy]
  | cons e es =>
    simp only [popMinBy]
    cases popMinBy le es with
    | none => simp
    | some p => cases p with | mk m rest => by_cases h : le e m <;> simp [h]

lemma popMin_perm : ∀ {l : List Entry} {m : Entry} {rest : List Entry},
    popMin l = some (m, rest) → l.Perm (m :: rest) := by
  intro l
  induction l with
  | nil => intro m rest h; simp [popMin, popMinBy] at h
  | cons e es ih =>
    intro m rest h
    simp only [popMin, popMinBy] at h
    rcases hrec : popMinBy entryLE es with _ | ⟨m', rest'⟩
    · rw [hrec] at h
      simp only [Option.some.injEq, Prod.mk.injEq] at h
      obtain ⟨rfl, rfl⟩ := h
      rw [(popMinBy_none entryLE es).mp hrec]
    · rw [hrec] at h
      by_cases hle : entryLE e m'
      · simp only [hle, if_true, Option.some.injEq, Prod.mk.injEq] at h
        obtain ⟨rfl, rfl⟩ := h
        exact List.Perm.refl _
      · simp only [hle, if_false, Option.some.injEq, Prod.mk.injEq] at h
        obtain ⟨rfl, rfl⟩ := h
        have hp : es.Perm (m :: rest') := ih hrec
        exact (hp.cons e).trans (List.Perm.swap m e rest')

lemma popMin_min : ∀ {l : List Entry} {m : Entry} {rest : List Entry},
    popMin l = some (m, rest) → ∀ a ∈ l, entryLE m a = true := by
  intro l
  induction l with
  | nil => intro m rest h; simp [popMin, popMinBy] at h
  | cons e es ih =>
    intro m rest h a ha
    simp only [popMin, popMinBy] at h
    rcases hrec : popMinBy entryLE es with _ | ⟨m', rest'⟩
    · rw [hrec] at h
      simp only [Option.some.injEq, Prod.mk.injEq] at h
      obtain ⟨rfl, rfl⟩ := h
      have : es = [] := (popMinBy_none entryLE es).mp hrec
      subst this
      simp at ha
      subst ha
      exact entryLE_refl a
    · rw [hrec] at h
      by_cases hle : entryLE e m'
      · simp only [hle, if_true, Option.some.injEq, Prod.mk.injEq] at h
        obtain ⟨rfl, rfl⟩ := h
        rcases List.mem_cons.mp ha with rfl | hin
        · exact entryLE_refl a
        · exact entryLE_trans hle (ih hrec a hin)
      · simp only [hle, if_false, Option.some.injEq, Prod.mk.injEq] at h
        obtain ⟨rfl, rfl⟩ := h
        rcases List.mem_cons.mp ha with rfl | hin
        · rcases entryLE_total a m with h1 | h1
          · exact absurd h1 hle
          · exact h1
        · exact ih hrec a hin

lemma popMin_mem {l : List Entry} {m : Entry} {rest : List Entry}
    (h : popMin l = some (m, rest)) : m ∈ l :=
  (popMin_perm h).mem_iff.mpr (List.mem_cons_self m rest)

lemma popMin_rest_mem {l : List Entry} {m : Entry} {rest : List Entry}
    (h : popMin l = some (m, rest)) {a : Entry} (ha : a ∈ rest) : a ∈ l :=
  (popMin_perm h).mem_iff.mpr (List.mem_cons_of_mem m ha)

lemma popMin_mem_rest_of_ne {l : List Entry} {m : Entry} {rest : List Entry}
    (h : popMin l = some (m, rest)) {a : Entry} (ha : a ∈ l) (hne : a ≠ m) :
    a ∈ rest := by
  have := (popMin_perm h).mem_iff.mp ha
  simpa [List.mem_cons, hne] using this

lemma popMin_length {l : List Entry} {m : Entry} {rest : List Entry}
    (h : popMin l = some (m, rest)) : l.length = rest.length + 1 := by
  simpa using (popMin_perm h).length_eq

/-! ## Facts about association lists -/

lemma alLookup_mem {β : Type} : ∀ {l : List (Pos × β)} {p : Pos} {v : β},
    alLookup l p = some v → (p, v) ∈ l := by
  intro l
  induction l with
  | nil => intro p v h; simp [alLookup] at h
  | cons kv t ih =>
    intro p v h
    obtain ⟨k, w⟩ := kv
    simp only [alLookup] at h
    by_cases hk : k = p
    · subst hk
      simp only [if_true] at h
      cases h
      exact List.mem_cons_self _ _
    · rw [if_neg hk] at h
      exact List.mem_cons_of_mem _ (ih h)

lemma alLookup_append_some {β : Type} {l l2 : List (Pos × β)} {p : Pos} {v : β}
    (h : alLookup l p = some v) : alLookup (l ++ l2) p = some v := by
  induction l with
  | nil => simp [alLookup] at h
  | cons kv t ih =>
    obtain ⟨k, w⟩ := kv
    simp only [alLookup, List.cons_append] at h ⊢
    by_cases hk : k = p
    · simpa [hk] using h
    · rw [if_neg hk] at h ⊢
      exact ih h

lemma alLookup_append_none {β : Type} {l : List (Pos × β)} {p : Pos}
    (h : alLookup l p = none) (l2 : List (Pos × β)) :
    alLookup (l ++ l2) p = alLookup l2 p := by
  induction l with
  | nil => simp [alLookup]
  | cons kv t ih =>
    obtain ⟨k, w⟩ := kv
    simp only [alLookup, List.cons_append] at h ⊢
    by_cases hk : k = p
    · simp [hk] at h
    · rw [if_neg hk] at h ⊢
      exact ih h

lemma alLookup_cons_self {β : Type} (l : List (Pos × β)) (p : Pos) (v : β) :
    alLookup ((p, v) :: l) p = some v := by
  simp [alLookup]

lemma alLookup_cons_ne {β : Type} (l : List (Pos × β)) {q p : Pos} (v : β)
    (h : q ≠ p) : alLookup ((q, v) :: l) p = alLookup l p := by
  simp [alLookup, h]

/-! ## Round-trip of the run-length summarizer (C9 support) -/

lemma expandGroups_append (a b : List (Nat × String)) :
    expandGroups (a ++ b) = expandGroups a ++ expandGroups b := by
  induction a with
  | nil => simp [expandGroups]
  | cons g t ih => simp [expandGroups, List.foldr_cons] at ih ⊢; simp [ih]

lemma expandGroups_single (count : Nat) (c : String) :
    expandGroups [(count, c)] = List.replicate count c := by
  simp [expandGroups]

lemma groupsLoop_expand : ∀ (ds : List String) (cur : Option String) (count : Nat)
    (acc : List (Nat × String)), (∀ d ∈ ds, d ≠ "") →
    (∀ c, cur = some c → c ≠ "") →
    expandGroups (groupsLoop ds cur count acc) =
      expandGroups acc ++
        (match cur with | some c => List.replicate count c | none => []) ++ ds := by
  intro ds
  induction ds with
  | nil =>
    intro cur count acc _ hcur
    cases cur with
    | none => simp [groupsLoop]
    | some c =>
      have hc : ¬(c = "") := hcur c rfl
      show expandGroups (if c = "" then acc else acc ++ [(count, c)]) = _
      rw [if_neg hc, expandGroups_append, expandGroups_single]
      simp
  | cons d ds ih =>
    intro cur count acc hds hcur
    have hd : d ≠ "" := hds d (List.mem_cons_self d ds)
    have hds' : ∀ x ∈ ds, x ≠ "" := fun x hx => hds x (List.mem_cons_of_mem d hx)
    by_cases hc : some d = cur
    · subst hc
      show expandGroups (if some d = some d then groupsLoop ds (some d) (count + 1) acc
        else _) = _
      rw [if_pos rfl, ih (some d) (count + 1) acc hds'
        (by intro c hc2; cases hc2; exact hd)]
      simp [List.replicate_succ' count d, List.append_assoc]
    · cases cur with
      | none =>
        show expandGroups (if some d = none then _ else groupsLoop ds (some d) 1 acc) = _
        rw [if_neg (by simp), ih (some d) 1 acc hds'
          (by intro c hc2; cases hc2; exact hd)]
        simp [List.replicate]
      | some c =>
        have hcne : ¬(c = "") := hcur c rfl
        show expandGroups (if some d = some c then _
          else if c = "" then groupsLoop ds (some d) 1 acc
          else groupsLoop ds (some d) 1 (acc ++ [(count, c)])) = _
        rw [if_neg hc, if_neg hcne, ih (some d) 1 (acc ++ [(count, c)]) hds'
          (by intro c2 hc2; cases hc2; exact hd)]
        rw [expandGroups_append, expandGroups_single]
        simp [List.replicate, List.append_assoc]

lemma mem_dirList_ne_empty {d : String} (h : d ∈ dirList) : d ≠ "" := by
  fin_cases h <;> decide

/-! ## Structure of `get_path_to_exit` (C10 support) -/

lemma pathHoriz_spec (cx ex : Int) :
    (∀ m ∈ pathHoriz cx ex, m = "right" ∨ m = "left") ∧
      (pathHoriz cx ex).length = (cx - ex).natAbs := by
  by_cases h : cx = ex
  · rw [pathHoriz]
    simp [h]
  · by_cases hlt : cx < ex
    · have ih := pathHoriz_spec (cx + 1) ex
      rw [pathHoriz]
      simp only [h, dif_neg, if_pos hlt, List.mem_cons, List.length_cons, not_false_iff]
      constructor
      · rintro m (rfl | hm)
        · left; rfl
        · exact ih.1 m hm
      · rw [ih.2]; omega
    · have ih := pathHoriz_spec (cx - 1) ex
      rw [pathHoriz]
      simp only [h, dif_neg, if_neg hlt, List.mem_cons, List.length_cons, not_false_iff]
      constructor
      · rintro m (rfl | hm)
        · right; rfl
        · exact ih.1 m hm
      · rw [ih.2]; omega
termination_by (ex - cx).natAbs
decreasing_by
  · omega
  · omega

lemma pathVert_spec (cy ey : Int) :
    (∀ m ∈ pathVert cy ey, m = "down" ∨ m = "up") ∧
      (pathVert cy ey).length = (cy - ey).natAbs := by
  by_cases h : cy = ey
  · rw [pathVert]
    simp [h]
  · by_cases hlt : cy < ey
    · have ih := pathVert_spec (cy + 1) ey
      rw [pathVert]
      simp only [h, dif_neg, if_pos hlt, List.mem_cons, List.length_cons, not_false_iff]
      constructor
      · rintro m (rfl | hm)
        · left; rfl
        · exact ih.1 m hm
      · rw [ih.2]; omega
    · have ih := pathVert_spec (cy - 1) ey
      rw [pathVert]
      simp only [h, dif_neg, if_neg hlt, List.mem_cons, List.length_cons, not_false_iff]
      constructor
      · rintro m (rfl | hm)
        · right; rfl
        · exact ih.1 m hm
      · rw [ih.2]; omega
termination_by (ey - cy).natAbs
decreasing_by
  · omega
  · omega

/-! ## Collision-map construction facts (C5 support) -/

lemma cmStep_extend (mem : Nat → Nat) (mapW mapH : Int) (m : CMap) (x y : Int) :
    ∃ tail, cmStep mem mapW mapH m x y = m ++ tail := by
  unfold cmStep
  split_ifs
  · exact ⟨[], by simp⟩
  · exact ⟨_, rfl⟩
  · exact ⟨_, rfl⟩
  · exact ⟨_, rfl⟩


lemma foldl_extend {α : Type} (g : CMap → α → CMap)
    (hg : ∀ m a, ∃ tail, g m a = m ++ tail) :
    ∀ (l : List α) (m : CMap), ∃ tail, l.foldl g m = m ++ tail := by
  intro l
  induction l with
  | nil => intro m; exact ⟨[], by simp⟩
  | cons a t ih =>
    intro m
    obtain ⟨t1, h1⟩ := hg m a
    obtain ⟨t2, h2⟩ := ih (g m a)
    exact ⟨t1 ++ t2, by rw [List.foldl_cons, h2, h1, List.append_assoc]⟩

lemma foldl_extend_lookup {α : Type} (g : CMap → α → CMap)
    (hg : ∀ m a, ∃ tail, g m a = m ++ tail)
    (l : List α) (m : CMap) (p : Pos) (v : TileVal) (h : alLookup m p = some v) :
    alLookup (l.foldl g m) p = some v := by
  obtain ⟨tail, htail⟩ := foldl_extend g hg l m
  rw [htail]
  exact alLookup_append_some h

/-- Lookups present before the window loop of `get_collision_map` runs are
still present, with the same value, afterwards: the loop skips any cell
that already has data and only appends fresh cells. -/
lemma get_collision_map_preserves (mem : Nat → Nat) (center_x center_y : Int)
    (radius : Nat) (map_width map_height : Int) (p : Pos) (v : TileVal)
    (h : alLookup
      [((center_x, center_y - 1), TileVal.b (decide (mem 0xC2FB ≠ 0))),
       ((center_x, center_y + 1), TileVal.b (decide (mem 0xC2FA ≠ 0))),
       ((center_x - 1, center_y), TileVal.b (decide (mem 0xC2FC ≠ 0))),
       ((center_x + 1, center_y), TileVal.b (decide (mem 0xC2FD ≠ 0)))] p = some v) :
    alLookup (get_collision_map mem center_x center_y radius map_width map_height) p
      = some v := by
  unfold get_collision_map
  refine foldl_extend_lookup _ ?_ _ _ _ _ h
  intro m dy
  exact foldl_extend _ (fun m2 dx => cmStep_extend mem map_width map_height m2 _ _) _ m

/-! ## Replay facts -/

lemma applyMove_up (p : Pos) : applyMove p "up" = (p.1, p.2 - 1) := rfl

lemma applyMove_down (p : Pos) : applyMove p "down" = (p.1, p.2 + 1) := rfl

lemma applyMove_left (p : Pos) : applyMove p "left" = (p.1 - 1, p.2) := rfl

lemma applyMove_right (p : Pos) : applyMove p "right" = (p.1 + 1, p.2) := rfl

lemma replayEnd_nil (a : Pos) : replayEnd a [] = a := rfl

lemma replayEnd_cons (a : Pos) (d : String) (ds : List String) :
    replayEnd a (d :: ds) = replayEnd (applyMove a d) ds := rfl

lemma replayEnd_append (a : Pos) (ms1 ms2 : List String) :
    replayEnd a (ms1 ++ ms2) = replayEnd (replayEnd a ms1) ms2 := by
  simp [replayEnd, List.foldl_append]

lemma walkOk_nil (obstacles : List Pos) (mapW mapH : Int) (a : Pos) :
    walkOk obstacles mapW mapH a [] = true := rfl

lemma walkOk_cons {obstacles : List Pos} {mapW mapH : Int} {a : Pos} {d : String}
    {ds : List String} :
    walkOk obstacles mapW mapH a (d :: ds) = true ↔
      d ∈ dirList ∧ okPosB obstacles mapW mapH (applyMove a d) = true ∧
        walkOk obstacles mapW mapH (applyMove a d) ds = true := by
  simp [walkOk, and_assoc]

lemma walkOk_append {obstacles : List Pos} {mapW mapH : Int} :
    ∀ (ms1 : List String) (a : Pos) (ms2 : List String),
    walkOk obstacles mapW mapH a (ms1 ++ ms2) = true ↔
      walkOk obstacles mapW mapH a ms1 = true ∧
        walkOk obstacles mapW mapH (replayEnd a ms1) ms2 = true := by
  intro ms1
  induction ms1 with
  | nil => intro a ms2; simp [walkOk, replayEnd]
  | cons d ds ih =>
    intro a ms2
    simp only [List.cons_append, walkOk_cons, replayEnd_cons, ih]
    tauto

/-- One replay step changes the Manhattan distance to any fixed target by
at most one. -/
lemma manhattan_step (a b : Pos) (d : String) (hd : d ∈ dirList) :
    manhattan_distance a.1 a.2 b.1 b.2 ≤
      manhattan_distance (applyMove a d).1 (applyMove a d).2 b.1 b.2 + 1 := by
  fin_cases hd <;>
    simp only [applyMove_up, applyMove_down, applyMove_left, applyMove_right,
      manhattan_distance] <;> omega

/-- Any safe cardinal walk from `a` to `b` has length at least the
Manhattan distance between them. -/
lemma manhattan_le_walk {obstacles : List Pos} {mapW mapH : Int} :
    ∀ (ms : List String) (a b : Pos),
    walkOk obstacles mapW mapH a ms = true → replayEnd a ms = b →
    manhattan_distance a.1 a.2 b.1 b.2 ≤ ms.length := by
  intro ms
  induction ms with
  | nil =>
    intro a b _ hend
    rw [replayEnd_nil] at hend
    subst hend
    simp [manhattan_distance]
  | cons d ds ih =>
    intro a b hw hend
    rw [walkOk_cons] at hw
    obtain ⟨hd, _, hw2⟩ := hw
    rw [replayEnd_cons] at hend
    have := ih (applyMove a d) b hw2 hend
    have hstep := manhattan_step a b d hd
    simp only [List.length_cons]
    omega

/-- Replaying the horizontal leg of `get_path_to_exit` on an
obstacle-free map: safe whenever the start row and both columns are in
bounds, and it ends at the target column. -/
lemma pathHoriz_walk (mapW mapH : Int) (ax ay bx : Int)
    (hax : 0 ≤ ax) (haxW : ax < mapW) (hbx : 0 ≤ bx) (hbxW : bx < mapW)
    (hay : 0 ≤ ay) (hayH : ay < mapH) :
    walkOk [] mapW mapH (ax, ay) (pathHoriz ax bx) = true ∧
      replayEnd (ax, ay) (pathHoriz ax bx) = (bx, ay) := by
  by_cases h : ax = bx
  · rw [pathHoriz]
    simp [h, walkOk_nil, replayEnd_nil]
  · by_cases hlt : ax < bx
    · have ih := pathHoriz_walk mapW mapH (ax + 1) ay bx (by omega) (by omega)
        hbx hbxW hay hayH
      rw [pathHoriz]
      simp only [h, dif_neg, if_pos hlt, not_false_iff]
      constructor
      · rw [walkOk_cons]
        refine ⟨by decide, ?_, ?_⟩
        · rw [applyMove_right]
          simp [okPosB, inBoundsB]
          omega
        · rw [applyMove_right]
          exact ih.1
      · rw [replayEnd_cons, applyMove_right]
        exact ih.2
    · have ih := pathHoriz_walk mapW mapH (ax - 1) ay bx (by omega) (by omega)
        hbx hbxW hay hayH
      rw [pathHoriz]
      simp only [h, dif_neg, if_neg hlt, not_false_iff]
      constructor
      · rw [walkOk_cons]
        refine ⟨by decide, ?_, ?_⟩
        · rw [applyMove_left]
          simp [okPosB, inBoundsB]
          omega
        · rw [applyMove_left]
          exact ih.1
      · rw [replayEnd_cons, applyMove_left]
        exact ih.2
termination_by (bx - ax).natAbs
decreasing_by
  · omega
  · omega

/-- Replaying the vertical leg of `get_path_to_exit` on an obstacle-free
map. -/
lemma pathVert_walk (mapW mapH : Int) (ax ay by2 : Int)
    (hax : 0 ≤ ax) (haxW : ax < mapW) (hay : 0 ≤ ay) (hayH : ay < mapH)
    (hby : 0 ≤ by2) (hbyH : by2 < mapH) :
    walkOk [] mapW mapH (ax, ay) (pathVert ay by2) = true ∧
      replayEnd (ax, ay) (pathVert ay by2) = (ax, by2) := by
  by_cases h : ay = by2
  · rw [pathVert]
    simp [h, walkOk_nil, replayEnd_nil]
  · by_cases hlt : ay < by2
    · have ih := pathVert_walk mapW mapH ax (ay + 1) by2 hax haxW (by omega) (by omega)
        hby hbyH
      rw [pathVert]
      simp only [h, dif_neg, if_pos hlt, not_false_iff]
      constructor
      · rw [walkOk_cons]
        refine ⟨by decide, ?_, ?_⟩
        · rw [applyMove_down]
          simp [okPosB, inBoundsB]
          omega
        · rw [applyMove_down]
          exact ih.1
      · rw [replayEnd_cons, applyMove_down]
        exact ih.2
    · have ih := pathVert_walk mapW mapH ax (ay - 1) by2 hax haxW (by omega) (by omega)
        hby hbyH
      rw [pathVert]
      simp only [h, dif_neg, if_neg hlt, not_false_iff]
      constructor
      · rw [walkOk_cons]
        refine ⟨by decide, ?_, ?_⟩
        · rw [applyMove_up]
          simp [okPosB, inBoundsB]
          omega
        · rw [applyMove_up]
          exact ih.1
      · rw [replayEnd_cons, applyMove_up]
        exact ih.2
termination_by (by2 - ay).natAbs
decreasing_by
  · omega
  · omega

/-- On an obstacle-free map, `get_path_to_exit` is a safe walk between
any two in-bounds positions, of length exactly their Manhattan distance. -/
lemma straight_path_ok (mapW mapH : Int) (a b : Pos)
    (ha : inBoundsB mapW mapH a = true) (hb : inBoundsB mapW mapH b = true) :
    replayOk [] mapW mapH a (get_path_to_exit a.1 a.2 b.1 b.2) b = true ∧
      (get_path_to_exit a.1 a.2 b.1 b.2).length
        = manhattan_distance a.1 a.2 b.1 b.2 := by
  simp only [inBoundsB, Bool.and_eq_true, decide_eq_true_eq] at ha hb
  obtain ⟨⟨⟨ha1, ha2⟩, ha3⟩, ha4⟩ := ha
  obtain ⟨⟨⟨hb1, hb2⟩, hb3⟩, hb4⟩ := hb
  have hh := pathHoriz_walk mapW mapH a.1 a.2 b.1 ha1 ha2 hb1 hb2 ha3 ha4
  have hv := pathVert_walk mapW mapH b.1 a.2 b.2 hb1 hb2 ha3 ha4 hb3 hb4
  constructor
  · unfold replayOk get_path_to_exit
    rw [Bool.and_eq_true]
    constructor
    · rw [walkOk_append]
      refine ⟨?_, ?_⟩
      · have := hh.1
        simpa using this
      · rw [show (a.1, a.2) = a from rfl] at hh
        rw [hh.2]
        exact hv.1
    · rw [replayEnd_append]
      rw [show (a.1, a.2) = a from rfl] at hh
      rw [hh.2, hv.2]
      simp
  · unfold get_path_to_exit
    rw [List.length_append, (pathHoriz_spec a.1 b.1).2, (pathVert_spec a.2 b.2).2]
    simp [manhattan_distance]

/-! ## Neighbor facts -/

lemma neighborList_applyMove (c : Pos) :
    ∀ nb ∈ neighborList c.1 c.2,
      nb.2.2 ∈ dirList ∧ (nb.1, nb.2.1) = applyMove c nb.2.2 := by
  intro nb hnb
  fin_cases hnb <;>
    exact ⟨by simp [dirList], by simp [applyMove_up, applyMove_down, applyMove_left,
      applyMove_right]⟩

lemma applyMove_mem_neighborList (c : Pos) (d : String) (hd : d ∈ dirList) :
    ((applyMove c d).1, (applyMove c d).2, d) ∈ neighborList c.1 c.2 := by
  fin_cases hd <;>
    simp [neighborList, applyMove_up, applyMove_down, applyMove_left, applyMove_right]

lemma applyMove_ne (c : Pos) (d : String) (hd : d ∈ dirList) : applyMove c d ≠ c := by
  obtain ⟨cx, cy⟩ := c
  fin_cases hd <;>
    simp only [applyMove_up, applyMove_down, applyMove_left, applyMove_right,
      Ne, Prod.mk.injEq, not_and] <;> intro h <;> omega

/-! ## Characterization of one relaxation step -/

/-- The state produced by a push for neighbor `nb` of `cur` with tentative
g-score `cg + 1`. -/
def pushState (gx gy : Int) (cg : Nat) (cur : Pos) (s : AState)
    (nb : Int × Int × String) : AState :=
  { openSet := s.openSet ++
      [(cg + 1 + manhattan_distance nb.1 nb.2.1 gx gy, cg + 1, nb.1, nb.2.1)]
    cameFrom := ((nb.1, nb.2.1), (cur, nb.2.2)) :: s.cameFrom
    gScore := ((nb.1, nb.2.1), cg + 1) :: s.gScore }

lemma relax_result (gx gy : Int) (obstacles : List Pos) (mapW mapH : Int)
    (cg : Nat) (cur : Pos) (s : AState) (nb : Int × Int × String) :
    relax gx gy obstacles mapW mapH cg cur s nb = s ∨
      (okPosB obstacles mapW mapH (nb.1, nb.2.1) = true ∧
        (alLookup s.gScore (nb.1, nb.2.1) = none ∨
          ∃ g0, alLookup s.gScore (nb.1, nb.2.1) = some g0 ∧ cg + 1 < g0) ∧
        relax gx gy obstacles mapW mapH cg cur s nb = pushState gx gy cg cur s nb) := by
  unfold relax
  by_cases h1 : nb.1 < 0 ∨ nb.2.1 < 0 ∨ mapW ≤ nb.1 ∨ mapH ≤ nb.2.1
  · left; rw [if_pos h1]
  · rw [if_neg h1]
    by_cases h2 : (nb.1, nb.2.1) ∈ obstacles
    · left; rw [if_pos h2]
    · rw [if_neg h2]
      by_cases h3 : shouldPush s.gScore (nb.1, nb.2.1) (cg + 1) = true
      · right
        refine ⟨?_, ?_, by rw [if_pos h3]; rfl⟩
        · simp only [okPosB, inBoundsB, Bool.and_eq_true, decide_eq_true_eq]
          push_neg at h1
          exact ⟨⟨⟨⟨h1.1, h1.2.2.1⟩, h1.2.1⟩, h1.2.2.2⟩, h2⟩
        · unfold shouldPush at h3
          rcases hl : alLookup s.gScore (nb.1, nb.2.1) with _ | g0
          · exact Or.inl rfl
          · rw [hl] at h3
            simp only [decide_eq_true_eq] at h3
            exact Or.inr ⟨g0, rfl, h3⟩
      · left
        rw [if_neg h3]

/-- If the neighbor cell is in bounds and unobstructed, then after its
relaxation its g-score is recorded and is at most `cg + 1`. -/
lemma relax_lookup_le (gx gy : Int) (obstacles : List Pos) (mapW mapH : Int)
    (cg : Nat) (cur : Pos) (s : AState) (nb : Int × Int × String)
    (hok : okPosB obstacles mapW mapH (nb.1, nb.2.1) = true) :
    ∃ g0, alLookup (relax gx gy obstacles mapW mapH cg cur s nb).gScore
        (nb.1, nb.2.1) = some g0 ∧ g0 ≤ cg + 1 := by
  have hbnd : ¬(nb.1 < 0 ∨ nb.2.1 < 0 ∨ mapW ≤ nb.1 ∨ mapH ≤ nb.2.1) := by
    simp only [okPosB, inBoundsB, Bool.and_eq_true, decide_eq_true_eq] at hok
    omega
  have hobs : ¬((nb.1, nb.2.1) ∈ obstacles) := by
    simp only [okPosB, Bool.and_eq_true, decide_eq_true_eq] at hok
    exact hok.2
  unfold relax
  rw [if_neg hbnd, if_neg hobs]
  by_cases h3 : shouldPush s.gScore (nb.1, nb.2.1) (cg + 1) = true
  · rw [if_pos h3]
    exact ⟨cg + 1, alLookup_cons_self _ _ _, le_refl _⟩
  · rw [if_neg h3]
    unfold shouldPush at h3
    rcases hl : alLookup s.gScore (nb.1, nb.2.1) with _ | g0
    · rw [hl] at h3; simp at h3
    · rw [hl] at h3
      simp only [decide_eq_true_eq, not_lt] at h3
      exact ⟨g0, rfl, h3⟩

lemma relax_open_grow {gx gy : Int} {obstacles : List Pos} {mapW mapH : Int}
    {cg : Nat} {cur : Pos} {s : AState} {nb : Int × Int × String} {a : Entry}
    (ha : a ∈ s.openSet) :
    a ∈ (relax gx gy obstacles mapW mapH cg cur s nb).openSet := by
  rcases relax_result gx gy obstacles mapW mapH cg cur s nb with h | ⟨_, _, h⟩
  · rw [h]; exact ha
  · rw [h]; exact List.mem_append_left _ ha

lemma relax_cf_grow {gx gy : Int} {obstacles : List Pos} {mapW mapH : Int}
    {cg : Nat} {cur : Pos} {s : AState} {nb : Int × Int × String} {p : Pos}
    (hp : (alLookup s.cameFrom p).isSome = true) :
    (alLookup (relax gx gy obstacles mapW mapH cg cur s nb).cameFrom p).isSome
      = true := by
  rcases relax_result gx gy obstacles mapW mapH cg cur s nb with h | ⟨_, _, h⟩
  · rw [h]; exact hp
  · rw [h]
    show (alLookup (((nb.1, nb.2.1), (cur, nb.2.2)) :: s.cameFrom) p).isSome = true
    by_cases hk : (nb.1, nb.2.1) = p
    · rw [show alLookup (((nb.1, nb.2.1), (cur, nb.2.2)) :: s.cameFrom) p
          = some (cur, nb.2.2) by rw [← hk]; exact alLookup_cons_self _ _ _]
      rfl
    · rw [alLookup_cons_ne _ _ hk]
      exact hp

lemma relax_cf_len {gx gy : Int} {obstacles : List Pos} {mapW mapH : Int}
    {cg : Nat} {cur : Pos} {s : AState} {nb : Int × Int × String} :
    s.cameFrom.length ≤
      (relax gx gy obstacles mapW mapH cg cur s nb).cameFrom.length := by
  rcases relax_result gx gy obstacles mapW mapH cg cur s nb with h | ⟨_, _, h⟩
  · rw [h]
  · rw [h]
    exact Nat.le_succ _

lemma relax_gMono {gx gy : Int} {obstacles : List Pos} {mapW mapH : Int}
    {cg : Nat} {cur : Pos} {s : AState} {nb : Int × Int × String} {p : Pos} {g : Nat}
    (hp : alLookup s.gScore p = some g) :
    ∃ g2, alLookup (relax gx gy obstacles mapW mapH cg cur s nb).gScore p = some g2
      ∧ g2 ≤ g := by
  rcases relax_result gx gy obstacles mapW mapH cg cur s nb with h | ⟨_, hcond, h⟩
  · rw [h]; exact ⟨g, hp, le_refl g⟩
  · rw [h]
    show ∃ g2, alLookup (((nb.1, nb.2.1), cg + 1) :: s.gScore) p = some g2 ∧ g2 ≤ g
    by_cases hk : (nb.1, nb.2.1) = p
    · subst hk
      rcases hcond with hnone | ⟨g0, hg0, hlt⟩
      · rw [hp] at hnone; cases hnone
      · rw [hp] at hg0
        cases hg0
        exact ⟨cg + 1, alLookup_cons_self _ _ _, by omega⟩
    · rw [alLookup_cons_ne _ _ hk]
      exact ⟨g, hp, le_refl g⟩

/-- Any g-score present after a relaxation was either already present with
the same value, or belongs to a freshly pushed open-set entry carrying
exactly that g-score. -/
lemma relax_changed {gx gy : Int} {obstacles : List Pos} {mapW mapH : Int}
    {cg : Nat} {cur : Pos} {s : AState} {nb : Int × Int × String} {p : Pos} {g2 : Nat}
    (hp : alLookup (relax gx gy obstacles mapW mapH cg cur s nb).gScore p = some g2) :
    alLookup s.gScore p = some g2 ∨
      ∃ e ∈ (relax gx gy obstacles mapW mapH cg cur s nb).openSet,
        epos e = p ∧ eg e = g2 := by
  rcases relax_result gx gy obstacles mapW mapH cg cur s nb with h | ⟨_, _, h⟩
  · rw [h] at hp; exact Or.inl hp
  · rw [h] at hp ⊢
    simp only [pushState] at hp ⊢
    by_cases hk : (nb.1, nb.2.1) = p
    · subst hk
      rw [alLookup_cons_self] at hp
      cases hp
      right
      refine ⟨(cg + 1 + manhattan_distance nb.1 nb.2.1 gx gy, cg + 1, nb.1, nb.2.1),
        ?_, rfl, rfl⟩
      exact List.mem_append_right _ (List.mem_singleton.mpr rfl)
    · rw [alLookup_cons_ne _ _ hk] at hp
      exact Or.inl hp

lemma alLookup_cons_isSome {β : Type} {l : List (Pos × β)} {p : Pos} (kv : Pos × β)
    (h : (alLookup l p).isSome = true) :
    (alLookup (kv :: l) p).isSome = true := by
  obtain ⟨k, v⟩ := kv
  by_cases hk : k = p
  · subst hk
    rw [alLookup_cons_self]
    rfl
  · rw [alLookup_cons_ne _ _ hk]
    exact h

/-! ## The search invariant -/

/-- Invariant of the `astar_pathfind` loop state.  `cameFrom` is a valid
backward-chain structure whose keys are safe cells with strictly
decreasing g-scores toward `start`; open-set entries carry
an f-score bracketed by their g-score and g-score plus heuristic, a
recorded g-score no larger than the tuple one, and a `cameFrom` entry
(unless they sit on `start`); all g-scores are bounded by the number of
relaxation events, and a recorded goal g-score implies a goal entry in
the open set. -/
structure AInv (gx gy : Int) (obstacles : List Pos) (mapW mapH : Int)
    (start : Pos) (s : AState) : Prop where
  startG : alLookup s.gScore start = some 0
  startCF : alLookup s.cameFrom start = none
  cf_dir : ∀ p pr d, alLookup s.cameFrom p = some (pr, d) → d ∈ dirList
  cf_move : ∀ p pr d, alLookup s.cameFrom p = some (pr, d) → p = applyMove pr d
  cf_ok : ∀ p pr d, alLookup s.cameFrom p = some (pr, d) →
    okPosB obstacles mapW mapH p = true
  cf_g : ∀ p pr d, alLookup s.cameFrom p = some (pr, d) →
    ∃ gp gpr, alLookup s.gScore p = some gp ∧ alLookup s.gScore pr = some gpr ∧
      gpr < gp
  cf_prev : ∀ p pr d, alLookup s.cameFrom p = some (pr, d) →
    pr = start ∨ (alLookup s.cameFrom pr).isSome = true
  open_g : ∀ e ∈ s.openSet, ∃ g0, alLookup s.gScore (epos e) = some g0 ∧ g0 ≤ eg e
  open_f_le : ∀ e ∈ s.openSet, ef e ≤ eg e + manhattan_distance (ex e) (ey e) gx gy
  open_f_ge : ∀ e ∈ s.openSet, eg e ≤ ef e
  open_cf : ∀ e ∈ s.openSet,
    epos e = start ∨ (alLookup s.cameFrom (epos e)).isSome = true
  open_gb : ∀ e ∈ s.openSet, eg e ≤ s.cameFrom.length
  g_bound : ∀ p g, alLookup s.gScore p = some g → g ≤ s.cameFrom.length
  goal_entry : (alLookup s.gScore (gx, gy)).isSome = true →
    ∃ e ∈ s.openSet, epos e = (gx, gy)

lemma relax_inv {gx gy : Int} {obstacles : List Pos} {mapW mapH : Int}
    {start : Pos} {cg : Nat} {cur : Pos} {s : AState} {nb : Int × Int × String}
    (hnb : nb ∈ neighborList cur.1 cur.2)
    (hA : AInv gx gy obstacles mapW mapH start s)
    (hgc : ∃ gc, alLookup s.gScore cur = some gc ∧ gc ≤ cg)
    (hcfc : cur = start ∨ (alLookup s.cameFrom cur).isSome = true)
    (hgb : cg ≤ s.cameFrom.length) :
    AInv gx gy obstacles mapW mapH start
        (relax gx gy obstacles mapW mapH cg cur s nb) ∧
      (∃ gc, alLookup (relax gx gy obstacles mapW mapH cg cur s nb).gScore cur
          = some gc ∧ gc ≤ cg) ∧
      (cur = start ∨
        (alLookup (relax gx gy obstacles mapW mapH cg cur s nb).cameFrom cur).isSome
          = true) ∧
      cg ≤ (relax gx gy obstacles mapW mapH cg cur s nb).cameFrom.length := by
  obtain ⟨hdir, hmove⟩ := neighborList_applyMove cur nb hnb
  rcases relax_result gx gy obstacles mapW mapH cg cur s nb with heq | ⟨hok, hcond, heq⟩
  · rw [heq]
    exact ⟨hA, hgc, hcfc, hgb⟩
  · obtain ⟨gc, hgcur, hgcle⟩ := hgc
    have hp0cur : (nb.1, nb.2.1) ≠ cur := by
      rw [hmove]
      exact applyMove_ne cur nb.2.2 hdir
    have hp0start : (nb.1, nb.2.1) ≠ start := by
      intro hcontra
      rcases hcond with hnone | ⟨g0, hg0, hlt⟩
      · rw [hcontra, hA.startG] at hnone
        cases hnone
      · rw [hcontra, hA.startG] at hg0
        cases hg0
        omega
    rw [heq]
    simp only [pushState]
    refine ⟨⟨?_, ?_, ?_, ?_, ?_, ?_, ?_, ?_, ?_, ?_, ?_, ?_, ?_, ?_⟩, ?_, ?_, ?_⟩
    · rw [alLookup_cons_ne _ _ hp0start]
      exact hA.startG
    · rw [alLookup_cons_ne _ _ hp0start]
      exact hA.startCF
    · intro p pr d hp
      by_cases hk : (nb.1, nb.2.1) = p
      · subst hk
        rw [alLookup_cons_self] at hp
        cases hp
        exact hdir
      · rw [alLookup_cons_ne _ _ hk] at hp
        exact hA.cf_dir p pr d hp
    · intro p pr d hp
      by_cases hk : (nb.1, nb.2.1) = p
      · subst hk
        rw [alLookup_cons_self] at hp
        cases hp
        exact hmove
      · rw [alLookup_cons_ne _ _ hk] at hp
        exact hA.cf_move p pr d hp
    · intro p pr d hp
      by_cases hk : (nb.1, nb.2.1) = p
      · subst hk
        exact hok
      · rw [alLookup_cons_ne _ _ hk] at hp
        exact hA.cf_ok p pr d hp
    · intro p pr d hp
      by_cases hk : (nb.1, nb.2.1) = p
      · subst hk
        rw [alLookup_cons_self] at hp
        cases hp
        refine ⟨cg + 1, gc, alLookup_cons_self _ _ _, ?_, by omega⟩
        rw [alLookup_cons_ne _ _ hp0cur]
        exact hgcur
      · rw [alLookup_cons_ne _ _ hk] at hp
        obtain ⟨gp, gpr, hgp, hgpr, hlt⟩ := hA.cf_g p pr d hp
        refine ⟨gp, ?_⟩
        rw [alLookup_cons_ne _ _ hk]
        by_cases hkpr : (nb.1, nb.2.1) = pr
        · subst hkpr
          rcases hcond with hnone | ⟨g0, hg0, hlt0⟩
          · rw [hgpr] at hnone
            cases hnone
          · rw [hgpr] at hg0
            cases hg0
            exact ⟨cg + 1, hgp, alLookup_cons_self _ _ _, by omega⟩
        · rw [alLookup_cons_ne _ _ hkpr]
          exact ⟨gpr, hgp, hgpr, hlt⟩
    · intro p pr d hp
      by_cases hk : (nb.1, nb.2.1) = p
      · subst hk
        rw [alLookup_cons_self] at hp
        cases hp
        rcases hcfc with hst | hsome
        · exact Or.inl hst
        · exact Or.inr (alLookup_cons_isSome _ hsome)
      · rw [alLookup_cons_ne _ _ hk] at hp
        rcases hA.cf_prev p pr d hp with hst | hsome
        · exact Or.inl hst
        · exact Or.inr (alLookup_cons_isSome _ hsome)
    · intro e he
      rcases List.mem_append.mp he with hold | hnew
      · obtain ⟨g0, hg0, hge⟩ := hA.open_g e hold
        by_cases hk : (nb.1, nb.2.1) = epos e
        · rcases hcond with hnone | ⟨g1, hg1, hlt⟩
          · rw [hk, hg0] at hnone
            cases hnone
          · rw [hk, hg0] at hg1
            cases hg1
            refine ⟨cg + 1, ?_, by omega⟩
            rw [← hk]
            exact alLookup_cons_self _ _ _
        · rw [alLookup_cons_ne _ _ hk]
          exact ⟨g0, hg0, hge⟩
      · rw [List.mem_singleton.mp hnew]
        exact ⟨cg + 1, alLookup_cons_self _ _ _, le_refl _⟩
    · intro e he
      rcases List.mem_append.mp he with hold | hnew
      · exact hA.open_f_le e hold
      · rw [List.mem_singleton.mp hnew]
        exact le_refl _
    · intro e he
      rcases List.mem_append.mp he with hold | hnew
      · exact hA.open_f_ge e hold
      · rw [List.mem_singleton.mp hnew]
        exact Nat.le_add_right _ _
    · intro e he
      rcases List.mem_append.mp he with hold | hnew
      · rcases hA.open_cf e hold with hst | hsome
        · exact Or.inl hst
        · exact Or.inr (alLookup_cons_isSome _ hsome)
      · rw [List.mem_singleton.mp hnew]
        right
        show (alLookup (((nb.1, nb.2.1), (cur, nb.2.2)) :: s.cameFrom)
          (nb.1, nb.2.1)).isSome = true
        rw [alLookup_cons_self]
        rfl
    · intro e he
      rcases List.mem_append.mp he with hold | hnew
      · calc eg e ≤ s.cameFrom.length := hA.open_gb e hold
          _ ≤ s.cameFrom.length + 1 := Nat.le_succ _
      · rw [List.mem_singleton.mp hnew]
        show cg + 1 ≤ s.cameFrom.length + 1
        omega
    · intro p g hp
      by_cases hk : (nb.1, nb.2.1) = p
      · subst hk
        rw [alLookup_cons_self] at hp
        cases hp
        show cg + 1 ≤ s.cameFrom.length + 1
        omega
      · rw [alLookup_cons_ne _ _ hk] at hp
        calc g ≤ s.cameFrom.length := hA.g_bound p g hp
          _ ≤ s.cameFrom.length + 1 := Nat.le_succ _
    · intro hsome
      by_cases hk : (nb.1, nb.2.1) = (gx, gy)
      · refine ⟨(cg + 1 + manhattan_distance nb.1 nb.2.1 gx gy, cg + 1, nb.1, nb.2.1),
          List.mem_append_right _ (List.mem_singleton.mpr rfl), hk⟩
      · rw [alLookup_cons_ne _ _ hk] at hsome
        obtain ⟨e, he, hepos⟩ := hA.goal_entry hsome
        exact ⟨e, List.mem_append_left _ he, hepos⟩
    · refine ⟨gc, ?_, hgcle⟩
      rw [alLookup_cons_ne _ _ hp0cur]
      exact hgcur
    · rcases hcfc with hst | hsome
      · exact Or.inl hst
      · exact Or.inr (alLookup_cons_isSome _ hsome)
    · show cg ≤ s.cameFrom.length + 1
      omega

lemma relaxFold_inv {gx gy : Int} {obstacles : List Pos} {mapW mapH : Int}
    {start : Pos} {cg : Nat} {cur : Pos} :
    ∀ (l : List (Int × Int × String)) (s : AState),
    (∀ nb ∈ l, nb ∈ neighborList cur.1 cur.2) →
    AInv gx gy obstacles mapW mapH start s →
    (∃ gc, alLookup s.gScore cur = some gc ∧ gc ≤ cg) →
    (cur = start ∨ (alLookup s.cameFrom cur).isSome = true) →
    cg ≤ s.cameFrom.length →
    AInv gx gy obstacles mapW mapH start
      (l.foldl (relax gx gy obstacles mapW mapH cg cur) s) := by
  intro l
  induction l with
  | nil => intro s _ hA _ _ _; exact hA
  | cons nb t ih =>
    intro s hl hA hgc hcfc hgb
    obtain ⟨hA2, hgc2, hcfc2, hgb2⟩ :=
      relax_inv (hl nb (List.mem_cons_self nb t)) hA hgc hcfc hgb
    exact ih _ (fun x hx => hl x (List.mem_cons_of_mem nb hx)) hA2 hgc2 hcfc2 hgb2

/-- The mid-iteration state: the minimum entry has been popped but not yet
expanded.  All invariant fields survive; the goal-entry field needs the
popped entry not to sit on the goal. -/
lemma popped_inv {gx gy : Int} {obstacles : List Pos} {mapW mapH : Int}
    {start : Pos} {s : AState} {m : Entry} {rest : List Entry}
    (hA : AInv gx gy obstacles mapW mapH start s)
    (hpop : popMin s.openSet = some (m, rest)) (hng : epos m ≠ (gx, gy)) :
    AInv gx gy obstacles mapW mapH start { s with openSet := rest } := by
  refine ⟨hA.startG, hA.startCF, hA.cf_dir, hA.cf_move, hA.cf_ok, hA.cf_g,
    hA.cf_prev, ?_, ?_, ?_, ?_, ?_, hA.g_bound, ?_⟩
  · intro e he
    exact hA.open_g e (popMin_rest_mem hpop he)
  · intro e he
    exact hA.open_f_le e (popMin_rest_mem hpop he)
  · intro e he
    exact hA.open_f_ge e (popMin_rest_mem hpop he)
  · intro e he
    exact hA.open_cf e (popMin_rest_mem hpop he)
  · intro e he
    exact hA.open_gb e (popMin_rest_mem hpop he)
  · intro hsome
    obtain ⟨e, he, hepos⟩ := hA.goal_entry hsome
    have hne : e ≠ m := by
      intro hcontra
      rw [hcontra] at hepos
      exact hng hepos
    exact ⟨e, popMin_mem_rest_of_ne hpop he hne, hepos⟩

/-- One full continue-iteration of the loop preserves the invariant. -/
lemma step_inv {gx gy : Int} {obstacles : List Pos} {mapW mapH : Int}
    {start : Pos} {s : AState} {m : Entry} {rest : List Entry}
    (hA : AInv gx gy obstacles mapW mapH start s)
    (hpop : popMin s.openSet = some (m, rest)) (hng : epos m ≠ (gx, gy)) :
    AInv gx gy obstacles mapW mapH start
      (relaxAll gx gy obstacles mapW mapH (eg m) (epos m)
        { s with openSet := rest }) := by
  have hmem : m ∈ s.openSet := popMin_mem hpop
  have hA2 := popped_inv hA hpop hng
  unfold relaxAll
  refine relaxFold_inv _ _ (fun nb h => h) hA2 ?_ ?_ ?_
  · exact hA.open_g m hmem
  · exact hA.open_cf m hmem
  · exact hA.open_gb m hmem

/-- The initial state of `astar_pathfind` satisfies the invariant. -/
lemma init_inv (gx gy : Int) (obstacles : List Pos) (mapW mapH : Int)
    (sx sy : Int) :
    AInv gx gy obstacles mapW mapH (sx, sy)
      ⟨[(0, 0, sx, sy)], [], [((sx, sy), 0)]⟩ := by
  refine ⟨alLookup_cons_self _ _ _, rfl, ?_, ?_, ?_, ?_, ?_, ?_, ?_, ?_, ?_, ?_, ?_, ?_⟩
  · intro p pr d hp
    simp [alLookup] at hp
  · intro p pr d hp
    simp [alLookup] at hp
  · intro p pr d hp
    simp [alLookup] at hp
  · intro p pr d hp
    simp [alLookup] at hp
  · intro p pr d hp
    simp [alLookup] at hp
  · intro e he
    rw [List.mem_singleton.mp he]
    exact ⟨0, alLookup_cons_self _ _ _, le_refl 0⟩
  · intro e he
    rw [List.mem_singleton.mp he]
    exact Nat.zero_le _
  · intro e he
    rw [List.mem_singleton.mp he]
    exact le_refl 0
  · intro e he
    rw [List.mem_singleton.mp he]
    exact Or.inl rfl
  · intro e he
    rw [List.mem_singleton.mp he]
    exact le_refl 0
  · intro p g hp
    by_cases hk : ((sx : Int), (sy : Int)) = p
    · rw [← hk, alLookup_cons_self] at hp
      cases hp
      exact le_refl 0
    · rw [alLookup_cons_ne _ _ hk] at hp
      simp [alLookup] at hp
  · intro hsome
    by_cases hk : ((sx : Int), (sy : Int)) = (gx, gy)
    · exact ⟨(0, 0, sx, sy), List.mem_singleton.mpr rfl, hk⟩
    · rw [alLookup_cons_ne _ _ hk] at hsome
      simp [alLookup] at hsome

/-! ## Correctness of path reconstruction -/

/-- Following the `cameFrom` chain from a recorded cell produces a safe
walk from `start` to that cell, no longer than its recorded g-score. -/
lemma reconstruct_spec {gx gy : Int} {obstacles : List Pos} {mapW mapH : Int}
    {start : Pos} {s : AState}
    (hA : AInv gx gy obstacles mapW mapH start s) :
    ∀ (fuel : Nat) (current : Pos) (gc : Nat),
    alLookup s.gScore current = some gc → gc < fuel →
    (current = start ∨ (alLookup s.cameFrom current).isSome = true) →
    ∀ acc, ∃ ms, reconstruct fuel s.cameFrom current start acc = ms ++ acc ∧
      walkOk obstacles mapW mapH start ms = true ∧
      replayEnd start ms = current ∧
      ms.length ≤ gc := by
  intro fuel
  induction fuel with
  | zero => intro current gc _ hlt; omega
  | succ fuel ih =>
    intro current gc hgc hlt hside acc
    show ∃ ms, (match alLookup s.cameFrom current with
      | none => acc
      | some (prev, dir) =>
        if prev = start then dir :: acc
        else reconstruct fuel s.cameFrom prev start (dir :: acc)) = ms ++ acc ∧ _
    rcases hcf : alLookup s.cameFrom current with _ | ⟨prev, dir⟩
    · have hcur : current = start := by
        rcases hside with h | h
        · exact h
        · rw [hcf] at h
          cases h
      exact ⟨[], by simp, by subst hcur; exact ⟨walkOk_nil _ _ _ _,
        replayEnd_nil _, Nat.zero_le _⟩⟩
    · dsimp only
      have hdir : dir ∈ dirList := hA.cf_dir current prev dir hcf
      have hmove : current = applyMove prev dir := hA.cf_move current prev dir hcf
      have hok : okPosB obstacles mapW mapH current = true :=
        hA.cf_ok current prev dir hcf
      obtain ⟨gp, gpr, hgp, hgpr, hplt⟩ := hA.cf_g current prev dir hcf
      rw [hgc] at hgp
      cases hgp
      by_cases hprev : prev = start
      · rw [if_pos hprev]
        refine ⟨[dir], rfl, ?_, ?_, by simp only [List.length_singleton]; omega⟩
        · rw [walkOk_cons]
          subst hprev
          exact ⟨hdir, by rw [← hmove]; exact hok, walkOk_nil _ _ _ _⟩
        · subst hprev
          rw [replayEnd_cons, replayEnd_nil, ← hmove]
      · rw [if_neg hprev]
        have hside2 : prev = start ∨ (alLookup s.cameFrom prev).isSome = true :=
          hA.cf_prev current prev dir hcf
        obtain ⟨ms2, hrec, hwalk, hend, hlen⟩ :=
          ih prev gpr hgpr (by omega) hside2 (dir :: acc)
        refine ⟨ms2 ++ [dir], by rw [hrec]; simp, ?_, ?_, ?_⟩
        · rw [walkOk_append]
          refine ⟨hwalk, ?_⟩
          rw [hend, walkOk_cons]
          exact ⟨hdir, by rw [← hmove]; exact hok, walkOk_nil _ _ _ _⟩
        · rw [replayEnd_append, hend, replayEnd_cons, replayEnd_nil, ← hmove]
        · simp only [List.length_append, List.length_singleton]
          omega

/-- The value returned by the goal branch of the loop: a safe walk from
`start` to the popped goal cell, bounded by the goal's recorded g-score. -/
lemma reconstruct_at_pop {gx gy : Int} {obstacles : List Pos} {mapW mapH : Int}
    {start : Pos} {s : AState} {m : Entry} {rest : List Entry}
    (hA : AInv gx gy obstacles mapW mapH start s)
    (hpop : popMin s.openSet = some (m, rest)) :
    ∃ gg, alLookup s.gScore (epos m) = some gg ∧ gg ≤ eg m ∧
      ∃ ms, reconstruct (s.cameFrom.length + 1) s.cameFrom (epos m) start [] = ms ∧
        walkOk obstacles mapW mapH start ms = true ∧
        replayEnd start ms = epos m ∧
        ms.length ≤ gg := by
  have hmem : m ∈ s.openSet := popMin_mem hpop
  obtain ⟨gg, hgg, hgle⟩ := hA.open_g m hmem
  refine ⟨gg, hgg, hgle, ?_⟩
  have hlt : gg < s.cameFrom.length + 1 := by
    have := hA.g_bound (epos m) gg hgg
    omega
  obtain ⟨ms, hrec, hwalk, hend, hlen⟩ :=
    reconstruct_spec hA (s.cameFrom.length + 1) (epos m) gg hgg hlt
      (hA.open_cf m hmem) []
  exact ⟨ms, by rw [hrec]; simp, hwalk, hend, hlen⟩

/-! ## Safety of every returned path (C2 support) -/

/-- Whatever the loop returns is a safe walk from `start`; nonempty
results moreover end on the goal cell. -/
lemma loop_safe {gx gy : Int} {obstacles : List Pos} {mapW mapH : Int}
    {start : Pos} :
    ∀ (fuel : Nat) (s : AState) (r : List String),
    AInv gx gy obstacles mapW mapH start s →
    astarLoop gx gy obstacles mapW mapH start fuel s = some r →
    walkOk obstacles mapW mapH start r = true ∧
      (r = [] ∨ replayEnd start r = (gx, gy)) := by
  intro fuel
  induction fuel with
  | zero => intro s r _ hrun; cases hrun
  | succ fuel ih =>
    intro s r hA hrun
    rw [show astarLoop gx gy obstacles mapW mapH start (fuel + 1) s =
      (match popMin s.openSet with
       | none => some []
       | some (e, rest) =>
         if epos e = (gx, gy) then
           some (reconstruct (s.cameFrom.length + 1) s.cameFrom (epos e) start [])
         else
           astarLoop gx gy obstacles mapW mapH start fuel
             (relaxAll gx gy obstacles mapW mapH (eg e)
               (epos e) { s with openSet := rest })) from rfl] at hrun
    rcases hpop : popMin s.openSet with _ | ⟨m, rest⟩
    · rw [hpop] at hrun
      cases hrun
      exact ⟨walkOk_nil _ _ _ _, Or.inl rfl⟩
    · rw [hpop] at hrun
      dsimp only at hrun
      by_cases hgoal : epos m = (gx, gy)
      · rw [if_pos hgoal] at hrun
        obtain ⟨gg, _, _, ms, hrec, hwalk, hend, _⟩ := reconstruct_at_pop hA hpop
        rw [hrec] at hrun
        cases hrun
        exact ⟨hwalk, Or.inr (by rw [hend, hgoal])⟩
      · rw [if_neg hgoal] at hrun
        exact ih _ r (step_inv hA hpop hgoal) hrun

/-! ## Facts about positions along a fixed safe walk -/

lemma walkOk_split {obstacles : List Pos} {mapW mapH : Int} {ms : List String}
    {a : Pos} (h : walkOk obstacles mapW mapH a ms = true) (j : Nat) :
    walkOk obstacles mapW mapH a (ms.take j) = true ∧
      walkOk obstacles mapW mapH (replayEnd a (ms.take j)) (ms.drop j) = true := by
  have h2 := (@walkOk_append obstacles mapW mapH (ms.take j) a (ms.drop j)).mp
  rw [List.take_append_drop] at h2
  exact h2 h

lemma replayEnd_take_drop {a : Pos} {ms : List String} (j : Nat) :
    replayEnd (replayEnd a (ms.take j)) (ms.drop j) = replayEnd a ms := by
  rw [← replayEnd_append, List.take_append_drop]

lemma walkOk_get {obstacles : List Pos} {mapW mapH : Int} {ms : List String}
    {a : Pos} (h : walkOk obstacles mapW mapH a ms = true) (j : Nat)
    (hj : j < ms.length) :
    ms.get ⟨j, hj⟩ ∈ dirList ∧
      okPosB obstacles mapW mapH (replayEnd a (ms.take (j + 1))) = true ∧
      replayEnd a (ms.take (j + 1))
        = applyMove (replayEnd a (ms.take j)) (ms.get ⟨j, hj⟩) := by
  have hdrop : ms.drop j = ms.get ⟨j, hj⟩ :: ms.drop (j + 1) := by
    rw [List.drop_eq_getElem_cons hj]
    rfl
  have h2 := (walkOk_split h j).2
  rw [hdrop, walkOk_cons] at h2
  have htake : ms.take (j + 1) = ms.take j ++ [ms.get ⟨j, hj⟩] := by
    rw [List.take_succ]
    congr 1
    rw [List.getElem?_eq_getElem hj]
    rfl
  have hend : replayEnd a (ms.take (j + 1))
      = applyMove (replayEnd a (ms.take j)) (ms.get ⟨j, hj⟩) := by
    rw [htake, replayEnd_append, replayEnd_cons, replayEnd_nil]
  refine ⟨h2.1, ?_, hend⟩
  rw [hend]
  exact h2.2.1

/-- Manhattan distance from the j-th position of a safe walk to its end is
at most the number of remaining moves. -/
lemma walk_suffix_manh {obstacles : List Pos} {mapW mapH : Int} {ms : List String}
    {a b : Pos} (h : walkOk obstacles mapW mapH a ms = true)
    (hend : replayEnd a ms = b) (j : Nat) :
    manhattan_distance (replayEnd a (ms.take j)).1 (replayEnd a (ms.take j)).2
      b.1 b.2 ≤ ms.length - j := by
  have h2 := (walkOk_split h j).2
  have hend2 : replayEnd (replayEnd a (ms.take j)) (ms.drop j) = b := by
    rw [replayEnd_take_drop]; exact hend
  have := manhattan_le_walk (ms.drop j) _ b h2 hend2
  rw [List.length_drop] at this
  exact this

/-! ## The optimality invariant -/

/-- Relative to a fixed safe walk `π` from `start`, at every loop state:
whenever the j-th walk position has a recorded g-score at most `j` and no
open entry at that position with tuple g-score at most `j`, then the next
walk position has already been relaxed to a g-score of at most `j + 1`. -/
def MInv (obstacles : List Pos) (mapW mapH : Int) (start : Pos) (π : List String)
    (s : AState) : Prop :=
  ∀ j, j < π.length →
    (∃ g, g ≤ j ∧ alLookup s.gScore (replayEnd start (π.take j)) = some g) →
    (¬ ∃ e ∈ s.openSet, epos e = replayEnd start (π.take j) ∧ eg e ≤ j) →
    ∃ g2, g2 ≤ j + 1 ∧ alLookup s.gScore (replayEnd start (π.take (j + 1))) = some g2

lemma alLookup_single {p q : Pos} {g0 g : Nat}
    (h : alLookup [(p, g0)] q = some g) : p = q ∧ g = g0 := by
  by_cases hk : p = q
  · subst hk
    rw [alLookup_cons_self] at h
    cases h
    exact ⟨rfl, rfl⟩
  · rw [alLookup_cons_ne _ _ hk] at h
    simp [alLookup] at h

lemma init_minv (obstacles : List Pos) (mapW mapH : Int) (sx sy : Int)
    (π : List String) :
    MInv obstacles mapW mapH (sx, sy) π ⟨[(0, 0, sx, sy)], [], [((sx, sy), 0)]⟩ := by
  intro j _ hg hne
  exfalso
  obtain ⟨g, _, hg⟩ := hg
  obtain ⟨hpos, hzero⟩ := alLookup_single hg
  exact hne ⟨(0, 0, sx, sy), List.mem_singleton.mpr rfl, hpos, Nat.zero_le j⟩

/-! ## Fold-level relaxation lemmas -/

lemma relaxFold_grow {gx gy : Int} {obstacles : List Pos} {mapW mapH : Int}
    {cg : Nat} {cur : Pos} :
    ∀ (l : List (Int × Int × String)) (s : AState) {a : Entry}, a ∈ s.openSet →
    a ∈ (l.foldl (relax gx gy obstacles mapW mapH cg cur) s).openSet := by
  intro l
  induction l with
  | nil => intro s a ha; exact ha
  | cons nb t ih => intro s a ha; exact ih _ (relax_open_grow ha)

lemma relaxFold_mono {gx gy : Int} {obstacles : List Pos} {mapW mapH : Int}
    {cg : Nat} {cur : Pos} :
    ∀ (l : List (Int × Int × String)) (s : AState) {p : Pos} {g : Nat},
    alLookup s.gScore p = some g →
    ∃ g2, alLookup ((l.foldl (relax gx gy obstacles mapW mapH cg cur) s).gScore) p
        = some g2 ∧ g2 ≤ g := by
  intro l
  induction l with
  | nil => intro s p g hp; exact ⟨g, hp, le_refl g⟩
  | cons nb t ih =>
    intro s p g hp
    obtain ⟨g1, hg1, hle1⟩ :=
      @relax_gMono gx gy obstacles mapW mapH cg cur s nb p g hp
    obtain ⟨g2, hg2, hle2⟩ := ih _ hg1
    exact ⟨g2, hg2, le_trans hle2 hle1⟩

lemma relaxFold_changed {gx gy : Int} {obstacles : List Pos} {mapW mapH : Int}
    {cg : Nat} {cur : Pos} :
    ∀ (l : List (Int × Int × String)) (s : AState) {p : Pos} {g2 : Nat},
    alLookup ((l.foldl (relax gx gy obstacles mapW mapH cg cur) s).gScore) p
      = some g2 →
    alLookup s.gScore p = some g2 ∨
      ∃ e ∈ (l.foldl (relax gx gy obstacles mapW mapH cg cur) s).openSet,
        epos e = p ∧ eg e = g2 := by
  intro l
  induction l with
  | nil => intro s p g2 hp; exact Or.inl hp
  | cons nb t ih =>
    intro s p g2 hp
    rcases ih _ hp with h1 | h2
    · rcases relax_changed h1 with h3 | ⟨e, he, hepos, hege⟩
      · exact Or.inl h3
      · exact Or.inr ⟨e, relaxFold_grow t _ he, hepos, hege⟩
    · exact Or.inr h2

lemma relaxFold_neighbor {gx gy : Int} {obstacles : List Pos} {mapW mapH : Int}
    {cg : Nat} {cur : Pos} :
    ∀ (l : List (Int × Int × String)) (s : AState) {nb : Int × Int × String},
    nb ∈ l → okPosB obstacles mapW mapH (nb.1, nb.2.1) = true →
    ∃ gv, alLookup ((l.foldl (relax gx gy obstacles mapW mapH cg cur) s).gScore)
        (nb.1, nb.2.1) = some gv ∧ gv ≤ cg + 1 := by
  intro l
  induction l with
  | nil => intro s nb hnb; cases hnb
  | cons hd t ih =>
    intro s nb hnb hok
    rcases List.mem_cons.mp hnb with rfl | hmem
    · obtain ⟨g0, hg0, hle0⟩ := relax_lookup_le gx gy obstacles mapW mapH cg cur s nb hok
      obtain ⟨g2, hg2, hle2⟩ := relaxFold_mono t _ hg0
      exact ⟨g2, hg2, le_trans hle2 hle0⟩
    · exact ih _ hmem hok

/-- One continue-iteration of the loop preserves the optimality invariant. -/
lemma step_minv {gx gy : Int} {obstacles : List Pos} {mapW mapH : Int}
    {start : Pos} {π : List String} {s : AState} {m : Entry} {rest : List Entry}
    (hM : MInv obstacles mapW mapH start π s)
    (hπ : walkOk obstacles mapW mapH start π = true)
    (hpop : popMin s.openSet = some (m, rest)) :
    MInv obstacles mapW mapH start π
      (relaxAll gx gy obstacles mapW mapH (eg m) (epos m)
        { s with openSet := rest }) := by
  unfold relaxAll
  intro j hj hg2 hne2
  obtain ⟨g, hgj, hg⟩ := hg2
  rcases relaxFold_changed (neighborList (epos m).1 (epos m).2)
      { s with openSet := rest } hg with hs1 | ⟨e, he, hepos, hege⟩
  · by_cases hcase : ∃ e ∈ s.openSet,
        epos e = replayEnd start (π.take j) ∧ eg e ≤ j
    · obtain ⟨e, he, hepse, hegle⟩ := hcase
      by_cases hem : e = m
      · subst hem
        obtain ⟨hdir, hok, hstep⟩ := walkOk_get hπ j hj
        have hnb0 := applyMove_mem_neighborList (replayEnd start (π.take j))
          (π.get ⟨j, hj⟩) hdir
        have hnb : ((applyMove (replayEnd start (π.take j)) (π.get ⟨j, hj⟩)).1,
            (applyMove (replayEnd start (π.take j)) (π.get ⟨j, hj⟩)).2,
            π.get ⟨j, hj⟩) ∈ neighborList (epos e).1 (epos e).2 := by
          rw [hepse]
          exact hnb0
        have hokq : okPosB obstacles mapW mapH
            ((applyMove (replayEnd start (π.take j)) (π.get ⟨j, hj⟩)).1,
             (applyMove (replayEnd start (π.take j)) (π.get ⟨j, hj⟩)).2) = true := by
          rw [← hstep]
          exact hok
        obtain ⟨gv, hgv, hgvle⟩ := @relaxFold_neighbor gx gy obstacles mapW mapH
          (eg e) (epos e) (neighborList (epos e).1 (epos e).2)
          { s with openSet := rest } _ hnb hokq
        refine ⟨gv, by omega, ?_⟩
        rw [hstep]
        exact hgv
      · exfalso
        apply hne2
        exact ⟨e, relaxFold_grow _ _ (popMin_mem_rest_of_ne hpop he hem),
          hepse, hegle⟩
    · obtain ⟨g2, hg2le, hg2⟩ := hM j hj ⟨g, hgj, hs1⟩ hcase
      obtain ⟨g3, hg3, hle3⟩ := relaxFold_mono
        (neighborList (epos m).1 (epos m).2) { s with openSet := rest } hg2
      exact ⟨g3, by omega, hg3⟩
  · exfalso
    apply hne2
    exact ⟨e, he, hepos, by omega⟩

/-- From a settled prefix position of the walk, either the goal g-score is
settled below the walk length, or some walk position ahead still has a
cheap open entry. -/
lemma frontier_aux {gx gy : Int} {obstacles : List Pos} {mapW mapH : Int}
    {start : Pos} {π : List String} {s : AState}
    (hM : MInv obstacles mapW mapH start π s)
    (hπe : replayEnd start π = (gx, gy)) :
    ∀ (d j : Nat), j + d = π.length →
    (∃ g, g ≤ j ∧ alLookup s.gScore (replayEnd start (π.take j)) = some g) →
    (∃ gg, gg ≤ π.length ∧ alLookup s.gScore (gx, gy) = some gg) ∨
      (∃ i, i < π.length ∧ ∃ e ∈ s.openSet,
        epos e = replayEnd start (π.take i) ∧ eg e ≤ i) := by
  intro d
  induction d with
  | zero =>
    intro j hj hg
    obtain ⟨g, hgle, hg⟩ := hg
    left
    refine ⟨g, by omega, ?_⟩
    rw [show j = π.length by omega, List.take_length, hπe] at hg
    exact hg
  | succ d ih =>
    intro j hj hg
    by_cases hc : ∃ e ∈ s.openSet, epos e = replayEnd start (π.take j) ∧ eg e ≤ j
    · exact Or.inr ⟨j, by omega, hc⟩
    · obtain ⟨g2, hg2le, hg2⟩ := hM j (by omega) hg hc
      exact ih (j + 1) (by omega) ⟨g2, hg2le, hg2⟩

/-- When the goal is popped, its recorded g-score is at most the length of
any fixed safe walk from `start` to the goal. -/
lemma goal_pop_bound {gx gy : Int} {obstacles : List Pos} {mapW mapH : Int}
    {start : Pos} {π : List String} {s : AState} {m : Entry} {rest : List Entry}
    (hA : AInv gx gy obstacles mapW mapH start s)
    (hM : MInv obstacles mapW mapH start π s)
    (hπw : walkOk obstacles mapW mapH start π = true)
    (hπe : replayEnd start π = (gx, gy))
    (hpop : popMin s.openSet = some (m, rest)) (hgoal : epos m = (gx, gy)) :
    ∃ gg, gg ≤ π.length ∧ alLookup s.gScore (gx, gy) = some gg := by
  have h0 : ∃ g, g ≤ 0 ∧ alLookup s.gScore (replayEnd start (π.take 0)) = some g :=
    ⟨0, le_refl 0, by rw [List.take_zero, replayEnd_nil]; exact hA.startG⟩
  rcases frontier_aux hM hπe π.length 0 (by omega) h0 with hdone |
    ⟨i, hik, e, he, hepos, hegi⟩
  · exact hdone
  · have hmin := popMin_min hpop e he
    have hfm : ef m ≤ ef e := entryLE_f hmin
    have hfe := hA.open_f_le e he
    rw [show ex e = (replayEnd start (π.take i)).1 from congrArg Prod.fst hepos,
      show ey e = (replayEnd start (π.take i)).2 from congrArg Prod.snd hepos] at hfe
    have hmanh := walk_suffix_manh hπw hπe i
    obtain ⟨gg, hgg, hggle⟩ := hA.open_g m (popMin_mem hpop)
    have hge : eg m ≤ ef m := hA.open_f_ge m (popMin_mem hpop)
    refine ⟨gg, ?_, by rw [← hgoal]; exact hgg⟩
    have hmanh2 : manhattan_distance (replayEnd start (π.take i)).1
        (replayEnd start (π.take i)).2 gx gy ≤ π.length - i := hmanh
    omega

/-- With a safe walk to the goal available, the open set cannot be
exhausted: the loop never takes the `Unreachable`-style exit. -/
lemma exhaust_absurd {gx gy : Int} {obstacles : List Pos} {mapW mapH : Int}
    {start : Pos} {π : List String} {s : AState}
    (hA : AInv gx gy obstacles mapW mapH start s)
    (hM : MInv obstacles mapW mapH start π s)
    (hπe : replayEnd start π = (gx, gy))
    (hempty : s.openSet = []) : False := by
  have h0 : ∃ g, g ≤ 0 ∧ alLookup s.gScore (replayEnd start (π.take 0)) = some g :=
    ⟨0, le_refl 0, by rw [List.take_zero, replayEnd_nil]; exact hA.startG⟩
  rcases frontier_aux hM hπe π.length 0 (by omega) h0 with ⟨gg, _, hgg⟩ |
    ⟨i, _, e, he, _⟩
  · obtain ⟨e, he, _⟩ := hA.goal_entry (by rw [hgg]; rfl)
    rw [hempty] at he
    cases he
  · rw [hempty] at he
    cases he

/-- Main run lemma: relative to any fixed safe walk `π` from `start` to
the goal, a completed loop run returns a safe walk to the goal no longer
than `π`. -/
lemma loop_main {gx gy : Int} {obstacles : List Pos} {mapW mapH : Int}
    {start : Pos} :
    ∀ (fuel : Nat) (s : AState) (r : List String) (π : List String),
    AInv gx gy obstacles mapW mapH start s →
    MInv obstacles mapW mapH start π s →
    walkOk obstacles mapW mapH start π = true →
    replayEnd start π = (gx, gy) →
    astarLoop gx gy obstacles mapW mapH start fuel s = some r →
    walkOk obstacles mapW mapH start r = true ∧ replayEnd start r = (gx, gy) ∧
      r.length ≤ π.length := by
  intro fuel
  induction fuel with
  | zero => intro s r π _ _ _ _ hrun; cases hrun
  | succ fuel ih =>
    intro s r π hA hM hπw hπe hrun
    rw [show astarLoop gx gy obstacles mapW mapH start (fuel + 1) s =
      (match popMin s.openSet with
       | none => some []
       | some (e, rest) =>
         if epos e = (gx, gy) then
           some (reconstruct (s.cameFrom.length + 1) s.cameFrom (epos e) start [])
         else
           astarLoop gx gy obstacles mapW mapH start fuel
             (relaxAll gx gy obstacles mapW mapH (eg e)
               (epos e) { s with openSet := rest })) from rfl] at hrun
    rcases hpop : popMin s.openSet with _ | ⟨m, rest⟩
    · exact absurd ((popMinBy_none entryLE s.openSet).mp hpop)
        (fun h => exhaust_absurd hA hM hπe h)
    · rw [hpop] at hrun
      dsimp only at hrun
      by_cases hgoal : epos m = (gx, gy)
      · rw [if_pos hgoal] at hrun
        obtain ⟨gg1, hgg1, hgg1le, ms, hrec, hwalk, hend, hlen⟩ :=
          reconstruct_at_pop hA hpop
        obtain ⟨gg2, hgg2le, hgg2⟩ := goal_pop_bound hA hM hπw hπe hpop hgoal
        rw [hgoal] at hgg1
        rw [hgg2] at hgg1
        cases hgg1
        rw [hrec] at hrun
        cases hrun
        exact ⟨hwalk, by rw [hend, hgoal], by omega⟩
      · rw [if_neg hgoal] at hrun
        exact ih _ r π (step_inv hA hpop hgoal) (step_minv hM hπw hpop) hπw hπe hrun

/-! ## Termination of the search loop -/

/-- The finite set of in-bounds positions. -/
def bnds (mapW mapH : Int) : Finset Pos :=
  (Finset.range mapW.toNat ×ˢ Finset.range mapH.toNat).image
    fun q => ((q.1 : Int), (q.2 : Int))

lemma mem_bnds {mapW mapH : Int} {p : Pos} :
    p ∈ bnds mapW mapH ↔ 0 ≤ p.1 ∧ p.1 < mapW ∧ 0 ≤ p.2 ∧ p.2 < mapH := by
  constructor
  · intro h
    simp only [bnds, Finset.mem_image, Finset.mem_product, Finset.mem_range] at h
    obtain ⟨⟨a, b⟩, ⟨ha, hb⟩, rfl⟩ := h
    refine ⟨by positivity, ?_, by positivity, ?_⟩ <;> omega
  · intro h
    simp only [bnds, Finset.mem_image, Finset.mem_product, Finset.mem_range]
    refine ⟨(p.1.toNat, p.2.toNat), ⟨by omega, by omega⟩, ?_⟩
    obtain ⟨p1, p2⟩ := p
    simp only [Prod.mk.injEq]
    constructor <;> omega

/-- Number of in-bounds cells with no recorded g-score. -/
def measU (mapW mapH : Int) (s : AState) : Nat :=
  ((bnds mapW mapH).filter fun p => alLookup s.gScore p = none).card

/-- Sum of the recorded g-scores over the in-bounds cells. -/
def measS (mapW mapH : Int) (s : AState) : Nat :=
  (bnds mapW mapH).sum fun p => (alLookup s.gScore p).getD 0

/-- Strict decrease in the (U, S) lexicographic measure. -/
def MLt (mapW mapH : Int) (s2 s1 : AState) : Prop :=
  measU mapW mapH s2 < measU mapW mapH s1 ∨
    (measU mapW mapH s2 = measU mapW mapH s1 ∧
      measS mapW mapH s2 < measS mapW mapH s1)

lemma MLt_trans {mapW mapH : Int} {s3 s2 s1 : AState}
    (h32 : MLt mapW mapH s3 s2) (h21 : MLt mapW mapH s2 s1) :
    MLt mapW mapH s3 s1 := by
  unfold MLt at h32 h21 ⊢
  omega

/-- A single relaxation either leaves the state untouched or strictly
decreases the (U, S) measure. -/
lemma relax_measure (gx gy : Int) (obstacles : List Pos) (mapW mapH : Int)
    (cg : Nat) (cur : Pos) (s : AState) (nb : Int × Int × String) :
    relax gx gy obstacles mapW mapH cg cur s nb = s ∨
      MLt mapW mapH (relax gx gy obstacles mapW mapH cg cur s nb) s := by
  rcases relax_result gx gy obstacles mapW mapH cg cur s nb with heq | ⟨hok, hcond, heq⟩
  · exact Or.inl heq
  · right
    rw [heq]
    have hmem : (nb.1, nb.2.1) ∈ bnds mapW mapH := by
      rw [mem_bnds]
      simp only [okPosB, inBoundsB, Bool.and_eq_true, decide_eq_true_eq] at hok
      exact ⟨hok.1.1.1.1, hok.1.1.1.2, hok.1.1.2, hok.1.2⟩
    rcases hcond with hnone | ⟨g0, hg0, hlt⟩
    · left
      show measU mapW mapH (pushState gx gy cg cur s nb) < measU mapW mapH s
      unfold measU
      have hfilter : (bnds mapW mapH).filter
          (fun p => alLookup (pushState gx gy cg cur s nb).gScore p = none)
          = ((bnds mapW mapH).filter fun p => alLookup s.gScore p = none).erase
              (nb.1, nb.2.1) := by
        ext q
        simp only [Finset.mem_filter, Finset.mem_erase]
        constructor
        · intro hq2
          obtain ⟨hq, hlq⟩ := hq2
          by_cases hk : (nb.1, nb.2.1) = q
          · exfalso
            rw [show alLookup (pushState gx gy cg cur s nb).gScore q
              = some (cg + 1) by rw [← hk]; exact alLookup_cons_self _ _ _] at hlq
            cases hlq
          · refine ⟨fun hcontra => hk hcontra.symm, hq, ?_⟩
            rw [show alLookup (pushState gx gy cg cur s nb).gScore q
              = alLookup s.gScore q from alLookup_cons_ne _ _ hk] at hlq
            exact hlq
        · intro hq2
          obtain ⟨hne, hq, hlq⟩ := hq2
          refine ⟨hq, ?_⟩
          rw [show alLookup (pushState gx gy cg cur s nb).gScore q
            = alLookup s.gScore q from
              alLookup_cons_ne _ _ (fun hcontra => hne hcontra.symm)]
          exact hlq
      rw [hfilter]
      apply Finset.card_erase_lt_of_mem
      rw [Finset.mem_filter]
      exact ⟨hmem, hnone⟩
    · right
      constructor
      · show measU mapW mapH (pushState gx gy cg cur s nb) = measU mapW mapH s
        unfold measU
        congr 1
        ext q
        simp only [Finset.mem_filter, and_congr_right_iff]
        intro _
        by_cases hk : (nb.1, nb.2.1) = q
        · rw [show alLookup (pushState gx gy cg cur s nb).gScore q
            = some (cg + 1) by rw [← hk]; exact alLookup_cons_self _ _ _]
          rw [← hk, hg0]
          simp
        · rw [show alLookup (pushState gx gy cg cur s nb).gScore q
            = alLookup s.gScore q from alLookup_cons_ne _ _ hk]
      · show measS mapW mapH (pushState gx gy cg cur s nb) < measS mapW mapH s
        unfold measS
        apply Finset.sum_lt_sum
        · intro q hq
          by_cases hk : (nb.1, nb.2.1) = q
          · rw [show alLookup (pushState gx gy cg cur s nb).gScore q
              = some (cg + 1) by rw [← hk]; exact alLookup_cons_self _ _ _]
            rw [← hk, hg0]
            simp only [Option.getD_some]
            omega
          · rw [show alLookup (pushState gx gy cg cur s nb).gScore q
              = alLookup s.gScore q from alLookup_cons_ne _ _ hk]
        · refine ⟨(nb.1, nb.2.1), hmem, ?_⟩
          rw [show alLookup (pushState gx gy cg cur s nb).gScore (nb.1, nb.2.1)
            = some (cg + 1) from alLookup_cons_self _ _ _]
          rw [hg0]
          simp only [Option.getD_some]
          omega

lemma relaxFold_measure (gx gy : Int) (obstacles : List Pos) (mapW mapH : Int)
    (cg : Nat) (cur : Pos) :
    ∀ (l : List (Int × Int × String)) (s : AState),
    l.foldl (relax gx gy obstacles mapW mapH cg cur) s = s ∨
      MLt mapW mapH (l.foldl (relax gx gy obstacles mapW mapH cg cur) s) s := by
  intro l
  induction l with
  | nil => intro s; exact Or.inl rfl
  | cons nb t ih =>
    intro s
    rcases relax_measure gx gy obstacles mapW mapH cg cur s nb with heq | hlt
    · rw [List.foldl_cons, heq]
      exact ih s
    · rcases ih (relax gx gy obstacles mapW mapH cg cur s nb) with heq2 | hlt2
      · rw [List.foldl_cons, heq2]
        exact Or.inr hlt
      · rw [List.foldl_cons]
        exact Or.inr (MLt_trans hlt2 hlt)

/-- The search loop terminates from every state: some fuel suffices. -/
lemma loop_terminates (gx gy : Int) (obstacles : List Pos) (mapW mapH : Int)
    (start : Pos) :
    ∀ s : AState, ∃ n r, astarLoop gx gy obstacles mapW mapH start n s = some r := by
  suffices haux : ∀ (u sv ln : Nat) (s : AState),
      measU mapW mapH s = u → measS mapW mapH s = sv → s.openSet.length = ln →
      ∃ n r, astarLoop gx gy obstacles mapW mapH start n s = some r by
    intro s
    exact haux _ _ _ s rfl rfl rfl
  intro u
  induction u using Nat.strong_induction_on with
  | _ u ihU =>
    intro sv
    induction sv using Nat.strong_induction_on with
    | _ sv ihS =>
      intro ln
      induction ln using Nat.strong_induction_on with
      | _ ln ihL =>
        intro s hU hS hL
        rcases hpop : popMin s.openSet with _ | ⟨m, rest⟩
        · refine ⟨1, [], ?_⟩
          rw [show astarLoop gx gy obstacles mapW mapH start 1 s =
            (match popMin s.openSet with
             | none => some []
             | some (e, rest) =>
               if epos e = (gx, gy) then
                 some (reconstruct (s.cameFrom.length + 1) s.cameFrom (epos e) start [])
               else
                 astarLoop gx gy obstacles mapW mapH start 0
                   (relaxAll gx gy obstacles mapW mapH (eg e)
                     (epos e) { s with openSet := rest })) from rfl, hpop]
        · by_cases hgoal : epos m = (gx, gy)
          · refine ⟨1, reconstruct (s.cameFrom.length + 1) s.cameFrom (epos m)
              (start) [], ?_⟩
            rw [show astarLoop gx gy obstacles mapW mapH start 1 s =
              (match popMin s.openSet with
               | none => some []
               | some (e, rest) =>
                 if epos e = (gx, gy) then
                   some (reconstruct (s.cameFrom.length + 1) s.cameFrom (epos e) start [])
                 else
                   astarLoop gx gy obstacles mapW mapH start 0
                     (relaxAll gx gy obstacles mapW mapH (eg e)
                       (epos e) { s with openSet := rest })) from rfl, hpop]
            dsimp only
            rw [if_pos hgoal]
          · have key : ∃ n r, astarLoop gx gy obstacles mapW mapH start n
                (relaxAll gx gy obstacles mapW mapH (eg m) (epos m)
                  { s with openSet := rest }) = some r := by
              have hU1 : measU mapW mapH { s with openSet := rest } = u := hU
              have hS1 : measS mapW mapH { s with openSet := rest } = sv := hS
              have hL1 : rest.length < ln := by
                have := popMin_length hpop
                omega
              rcases relaxFold_measure gx gy obstacles mapW mapH (eg m) (epos m)
                  (neighborList (epos m).1 (epos m).2)
                  { s with openSet := rest } with heq | hlt
              · apply ihL rest.length hL1
                · show measU mapW mapH (relaxAll gx gy obstacles mapW mapH (eg m)
                    (epos m) { s with openSet := rest }) = u
                  unfold relaxAll
                  rw [heq]
                  exact hU1
                · show measS mapW mapH (relaxAll gx gy obstacles mapW mapH (eg m)
                    (epos m) { s with openSet := rest }) = sv
                  unfold relaxAll
                  rw [heq]
                  exact hS1
                · show (relaxAll gx gy obstacles mapW mapH (eg m)
                    (epos m) { s with openSet := rest }).openSet.length = rest.length
                  unfold relaxAll
                  rw [heq]
              · rcases hlt with hUlt | ⟨hUeq, hSlt⟩
                · apply ihU (measU mapW mapH (relaxAll gx gy obstacles mapW mapH
                    (eg m) (epos m) { s with openSet := rest }))
                  · show measU mapW mapH (relaxAll gx gy obstacles mapW mapH (eg m)
                      (epos m) { s with openSet := rest }) < u
                    unfold relaxAll
                    omega
                  · rfl
                  · rfl
                  · rfl
                · apply ihS (measS mapW mapH (relaxAll gx gy obstacles mapW mapH
                    (eg m) (epos m) { s with openSet := rest }))
                  · show measS mapW mapH (relaxAll gx gy obstacles mapW mapH (eg m)
                      (epos m) { s with openSet := rest }) < sv
                    unfold relaxAll
                    omega
                  · show measU mapW mapH (relaxAll gx gy obstacles mapW mapH (eg m)
                      (epos m) { s with openSet := rest }) = u
                    unfold relaxAll
                    omega
                  · rfl
                  · rfl
            obtain ⟨n, r, hn⟩ := key
            refine ⟨n + 1, r, ?_⟩
            rw [show astarLoop gx gy obstacles mapW mapH start (n + 1) s =
              (match popMin s.openSet with
               | none => some []
               | some (e, rest) =>
                 if epos e = (gx, gy) then
                   some (reconstruct (s.cameFrom.length + 1) s.cameFrom (epos e) start [])
                 else
                   astarLoop gx gy obstacles mapW mapH start n
                     (relaxAll gx gy obstacles mapW mapH (eg e)
                       (epos e) { s with openSet := rest })) from rfl, hpop]
            dsimp only
            rw [if_neg hgoal]
            exact hn

/-- `astar_pathfind` terminates on every input: some fuel suffices. -/
lemma astar_terminates (sx sy gx gy : Int) (obstacles : List Pos)
    (mapW mapH : Int) :
    ∃ n r, astar_pathfind n sx sy gx gy obstacles mapW mapH = some r := by
  by_cases h1 : (gx, gy) ∈ obstacles
  · exact ⟨0, [], by unfold astar_pathfind; rw [if_pos h1]⟩
  · by_cases h2 : gx < 0 ∨ gy < 0 ∨ mapW ≤ gx ∨ mapH ≤ gy
    · exact ⟨0, [], by unfold astar_pathfind; rw [if_neg h1, if_pos h2]⟩
    · obtain ⟨n, r, hn⟩ := loop_terminates gx gy obstacles mapW mapH (sx, sy)
        ⟨[(0, 0, sx, sy)], [], [((sx, sy), 0)]⟩
      exact ⟨n, r, by unfold astar_pathfind; rw [if_neg h1, if_neg h2]; exact hn⟩

/-- Boolean split of `replayOk`. -/
lemma replayOk_iff {obstacles : List Pos} {mapW mapH : Int} {a : Pos}
    {ms : List String} {b : Pos} :
    replayOk obstacles mapW mapH a ms b = true ↔
      walkOk obstacles mapW mapH a ms = true ∧ replayEnd a ms = b := by
  simp [replayOk]

/-! ## Claim theorems -/

/-- C1: for every map bounds, obstacle set, and in-bounds start and goal
with the goal not an obstacle, if any cardinal-move path from start to
goal exists that avoids obstacles and stays in bounds, then
`astar_pathfind` returns a path that is itself such a path and whose
length is minimal among all of them (the length a reference breadth-first
search would report); in particular, on an obstacle-free grid the
returned path length equals the Manhattan distance between start and
goal. -/
theorem astar_optimal_c1 (sx sy gx gy : Int) (obstacles : List Pos)
    (mapW mapH : Int)
    (hs : inBoundsB mapW mapH (sx, sy) = true)
    (hg : inBoundsB mapW mapH (gx, gy) = true)
    (hgo : (gx, gy) ∉ obstacles)
    (hex : ∃ q, replayOk obstacles mapW mapH (sx, sy) q (gx, gy) = true) :
    ∃ n p, astar_pathfind n sx sy gx gy obstacles mapW mapH = some p ∧
      replayOk obstacles mapW mapH (sx, sy) p (gx, gy) = true ∧
      (∀ q, replayOk obstacles mapW mapH (sx, sy) q (gx, gy) = true →
        p.length ≤ q.length) ∧
      (obstacles = [] → p.length = manhattan_distance sx sy gx gy) := by
  have hg2 : 0 ≤ gx ∧ gx < mapW ∧ 0 ≤ gy ∧ gy < mapH := by
    simpa [inBoundsB, and_assoc] using hg
  have hgb : ¬(gx < 0 ∨ gy < 0 ∨ mapW ≤ gx ∨ mapH ≤ gy) := by omega
  obtain ⟨n, r, hrun⟩ := loop_terminates gx gy obstacles mapW mapH (sx, sy)
    ⟨[(0, 0, sx, sy)], [], [((sx, sy), 0)]⟩
  have hast : astar_pathfind n sx sy gx gy obstacles mapW mapH = some r := by
    unfold astar_pathfind
    rw [if_neg hgo, if_neg hgb]
    exact hrun
  obtain ⟨q0, hq0⟩ := hex
  obtain ⟨hq0w, hq0e⟩ := replayOk_iff.mp hq0
  obtain ⟨hrw, hre, _⟩ := loop_main n _ r q0 (init_inv gx gy obstacles mapW mapH sx sy)
    (init_minv obstacles mapW mapH sx sy q0) hq0w hq0e hrun
  refine ⟨n, r, hast, replayOk_iff.mpr ⟨hrw, hre⟩, ?_, ?_⟩
  · intro q hq
    obtain ⟨hqw, hqe⟩ := replayOk_iff.mp hq
    obtain ⟨_, _, hlen⟩ := loop_main n _ r q (init_inv gx gy obstacles mapW mapH sx sy)
      (init_minv obstacles mapW mapH sx sy q) hqw hqe hrun
    exact hlen
  · intro hobs
    subst hobs
    obtain ⟨hsp, hsplen⟩ := straight_path_ok mapW mapH (sx, sy) (gx, gy) hs hg
    obtain ⟨hspw, hspe⟩ := replayOk_iff.mp hsp
    obtain ⟨_, _, hlen⟩ := loop_main n _ r _ (init_inv gx gy [] mapW mapH sx sy)
      (init_minv [] mapW mapH sx sy _) hspw hspe hrun
    have hlower : manhattan_distance sx sy gx gy ≤ r.length :=
      manhattan_le_walk r (sx, sy) (gx, gy) hrw hre
    have hsplen2 : (get_path_to_exit (sx, sy).1 (sx, sy).2 (gx, gy).1 (gx, gy).2).length
        = manhattan_distance sx sy gx gy := hsplen
    omega

/-- C1 witness: a concrete obstacle-free instance discharging every
hypothesis of `astar_optimal_c1`. -/
theorem astar_optimal_c1_witness :
    inBoundsB 3 1 ((0 : Int), (0 : Int)) = true ∧
    inBoundsB 3 1 ((2 : Int), (0 : Int)) = true ∧
    ((2 : Int), (0 : Int)) ∉ ([] : List Pos) ∧
    replayOk [] 3 1 (0, 0) ["right", "right"] (2, 0) = true ∧
    (∃ n p, astar_pathfind n 0 0 2 0 [] 3 1 = some p ∧
      replayOk [] 3 1 (0, 0) p (2, 0) = true ∧
      (∀ q, replayOk [] 3 1 (0, 0) q (2, 0) = true → p.length ≤ q.length) ∧
      (([] : List Pos) = [] → p.length = manhattan_distance 0 0 2 0)) :=
  ⟨by decide, by decide, by decide, by decide,
    astar_optimal_c1 0 0 2 0 [] 3 1 (by decide) (by decide) (by decide)
      ⟨["right", "right"], by decide⟩⟩

/-- C2: replaying any path returned by `astar_pathfind` from the start
position visits only in-bounds, non-obstacle cells, and the same holds
for `calculate_path_from_data`, whose obstacle set unions truthy
collision-map cells with NPC positions. -/
theorem astar_path_safe_c2 :
    (∀ (fuel : Nat) (sx sy gx gy : Int) (obstacles : List Pos) (mapW mapH : Int)
      (p : List String),
      astar_pathfind fuel sx sy gx gy obstacles mapW mapH = some p →
      walkOk obstacles mapW mapH (sx, sy) p = true) ∧
    (∀ (fuel : Nat) (d : PathData) (r : PathResult),
      calculate_path_from_data fuel d = some r →
      walkOk (obstaclesOf d) d.mapW d.mapH (d.playerX, d.playerY) r.path = true) := by
  have h1 : ∀ (fuel : Nat) (sx sy gx gy : Int) (obstacles : List Pos)
      (mapW mapH : Int) (p : List String),
      astar_pathfind fuel sx sy gx gy obstacles mapW mapH = some p →
      walkOk obstacles mapW mapH (sx, sy) p = true := by
    intro fuel sx sy gx gy obstacles mapW mapH p hp
    unfold astar_pathfind at hp
    by_cases hc1 : (gx, gy) ∈ obstacles
    · rw [if_pos hc1] at hp
      cases hp
      exact walkOk_nil _ _ _ _
    · rw [if_neg hc1] at hp
      by_cases hc2 : gx < 0 ∨ gy < 0 ∨ mapW ≤ gx ∨ mapH ≤ gy
      · rw [if_pos hc2] at hp
        cases hp
        exact walkOk_nil _ _ _ _
      · rw [if_neg hc2] at hp
        exact (loop_safe fuel _ p (init_inv gx gy obstacles mapW mapH sx sy) hp).1
  refine ⟨h1, ?_⟩
  intro fuel d r hr
  unfold calculate_path_from_data at hr
  rcases happ : astar_pathfind fuel d.playerX d.playerY d.targetX d.targetY
      (obstaclesOf d) d.mapW d.mapH with _ | path
  · rw [happ] at hr
    cases hr
  · rw [happ] at hr
    cases hr
    exact h1 fuel _ _ _ _ _ _ _ _ happ

/-- C2 witness: a concrete run of `astar_pathfind` around an obstacle and
the safety of its replay. -/
theorem astar_path_safe_c2_witness :
    astar_pathfind 20 0 0 2 0 [(1, 1)] 3 2 = some ["right", "right"] ∧
    walkOk [(1, 1)] 3 2 (0, 0) ["right", "right"] = true :=
  ⟨by decide, astar_path_safe_c2.1 20 0 0 2 0 [(1, 1)] 3 2 ["right", "right"]
    (by decide)⟩

/-- The data of the C3 counterexample: the target tile (5, 5) is a warp
(waypoint) and is occupied by an NPC. -/
def c3Data : PathData :=
  ⟨4, 5, 5, 5, 10, 10, [(5, 5)], [(5, 5)], []⟩

/-- C3 counterexample: the goal coincides with a waypoint (warp), yet the
obstacle set handed to the search still contains it — nothing excludes
the goal — and planning returns the empty path with `success = False`
instead of a path ending on the waypoint. -/
theorem waypoint_goal_c3_counterexample :
    c3Data.warps = [(5, 5)] ∧ (c3Data.targetX, c3Data.targetY) = ((5 : Int), (5 : Int)) ∧
    ((5, 5) : Pos) ∈ obstaclesOf c3Data ∧
    calculate_path_from_data 50 c3Data = some ⟨[], 0, false, (4, 5), (5, 5), 1⟩ := by
  decide

/-- C3 amended: the planner never excludes a goal from the obstacle set,
waypoint or not: whenever the goal position lies in the obstacle set
built by `calculate_path_from_data` (NPC positions plus truthy
collision-map cells), the result is the empty path with `success = False`
— such a goal is not enterable. -/
theorem waypoint_goal_c3_amended (fuel : Nat) (d : PathData)
    (h : (d.targetX, d.targetY) ∈ obstaclesOf d) :
    calculate_path_from_data fuel d
      = some ⟨[], 0, false, (d.playerX, d.playerY), (d.targetX, d.targetY),
          (obstaclesOf d).dedup.length⟩ := by
  unfold calculate_path_from_data astar_pathfind
  rw [if_pos h]
  rfl

/-- C3 witness for the amended claim, at the counterexample data. -/
theorem waypoint_goal_c3_witness :
    ((5, 5) : Pos) ∈ obstaclesOf c3Data ∧
    calculate_path_from_data 50 c3Data
      = some ⟨[], 0, false, (4, 5), (5, 5), 1⟩ :=
  ⟨by decide, waypoint_goal_c3_amended 50 c3Data (by decide)⟩

/-- C4 counterexample: an obstacle goal (with zero search fuel: checked
before search), an unreachable goal, and an already-reached goal all
return the one untagged value `[]` — the three outcomes the claim calls
`InvalidGoal`, `Unreachable` and `Found` are not distinguishable. -/
theorem result_tags_c4_counterexample :
    astar_pathfind 0 0 0 1 0 [(1, 0)] 3 1 = some [] ∧
    astar_pathfind 9 0 0 2 0 [(1, 0)] 3 1 = some [] ∧
    astar_pathfind 9 0 0 0 0 [] 3 1 = some [] := by
  decide

/-- C4 amended: the goal-in-obstacles and goal-out-of-bounds checks do
run before any search begins (the result needs no fuel), but the planner
returns the plain empty list in those cases — the same value it returns
when the open set is exhausted or when the start already sits on the
goal — so no tagged `Found` / `Unreachable` / `InvalidGoal` distinction
reaches the caller. -/
theorem result_tags_c4_amended (fuel : Nat) (sx sy gx gy : Int)
    (obstacles : List Pos) (mapW mapH : Int)
    (h : (gx, gy) ∈ obstacles ∨ gx < 0 ∨ gy < 0 ∨ mapW ≤ gx ∨ mapH ≤ gy) :
    astar_pathfind fuel sx sy gx gy obstacles mapW mapH = some [] := by
  unfold astar_pathfind
  by_cases h1 : (gx, gy) ∈ obstacles
  · rw [if_pos h1]
  · rw [if_neg h1]
    have h2 : gx < 0 ∨ gy < 0 ∨ mapW ≤ gx ∨ mapH ≤ gy := by tauto
    rw [if_pos h2]

/-- C4 witness for the amended claim. -/
theorem result_tags_c4_witness :
    (((1 : Int), (0 : Int)) ∈ [((1 : Int), (0 : Int))] ∨ (1 : Int) < 0 ∨ (0 : Int) < 0
      ∨ (3 : Int) ≤ 1 ∨ (1 : Int) ≤ 0) ∧
    astar_pathfind 0 0 0 1 0 [(1, 0)] 3 1 = some [] :=
  ⟨by decide, result_tags_c4_amended 0 0 0 1 0 [(1, 0)] 3 1 (by decide)⟩

/-- C5: in the collision grid built by `get_collision_map`, each of the
four cells adjacent to the reference position is classified solely from
its ground-truth adjacency byte — walkable exactly when the byte is the
clear sentinel `0x00`, blocked for every other value — and the later
heuristic window loop never overwrites these four entries; moreover
`is_direction_walkable` accepts exactly the sentinel. -/
theorem ground_truth_adjacency_c5 (mem : Nat → Nat) (center_x center_y : Int)
    (radius : Nat) (map_width map_height : Int) :
    alLookup (get_collision_map mem center_x center_y radius map_width map_height)
        (center_x, center_y - 1) = some (TileVal.b (decide (mem 0xC2FB ≠ 0))) ∧
    alLookup (get_collision_map mem center_x center_y radius map_width map_height)
        (center_x, center_y + 1) = some (TileVal.b (decide (mem 0xC2FA ≠ 0))) ∧
    alLookup (get_collision_map mem center_x center_y radius map_width map_height)
        (center_x - 1, center_y) = some (TileVal.b (decide (mem 0xC2FC ≠ 0))) ∧
    alLookup (get_collision_map mem center_x center_y radius map_width map_height)
        (center_x + 1, center_y) = some (TileVal.b (decide (mem 0xC2FD ≠ 0))) ∧
    (∀ v : Nat, is_direction_walkable v = true ↔ v = 0) := by
  refine ⟨?_, ?_, ?_, ?_, ?_⟩
  · apply get_collision_map_preserves
    exact alLookup_cons_self _ _ _
  · apply get_collision_map_preserves
    rw [alLookup_cons_ne _ _ (by intro hcontra; rw [Prod.mk.injEq] at hcontra; omega)]
    exact alLookup_cons_self _ _ _
  · apply get_collision_map_preserves
    rw [alLookup_cons_ne _ _ (by intro hcontra; rw [Prod.mk.injEq] at hcontra; omega)]
    rw [alLookup_cons_ne _ _ (by intro hcontra; rw [Prod.mk.injEq] at hcontra; omega)]
    exact alLookup_cons_self _ _ _
  · apply get_collision_map_preserves
    rw [alLookup_cons_ne _ _ (by intro hcontra; rw [Prod.mk.injEq] at hcontra; omega)]
    rw [alLookup_cons_ne _ _ (by intro hcontra; rw [Prod.mk.injEq] at hcontra; omega)]
    rw [alLookup_cons_ne _ _ (by intro hcontra; rw [Prod.mk.injEq] at hcontra; omega)]
    exact alLookup_cons_self _ _ _
  · intro v
    simp [is_direction_walkable]

/-- C6: every position whose collision-map value is the string
`'unknown'` lands in the obstacle set built by
`calculate_path_from_data` — unknown cells are non-traversable to the
planner (and no optimistic mode exists that could silently flip this). -/
theorem unknown_is_blocked_c6 (d : PathData) (p : Pos)
    (h : alLookup d.collision_map p = some TileVal.unknown) :
    p ∈ obstaclesOf d := by
  unfold obstaclesOf
  refine List.mem_append.mpr (Or.inr ?_)
  refine List.mem_map.mpr ⟨(p, TileVal.unknown), ?_, rfl⟩
  rw [List.mem_filter]
  exact ⟨alLookup_mem h, rfl⟩

/-- The data of the C6 witness. -/
def c6Data : PathData :=
  ⟨0, 0, 4, 4, 5, 5, [], [], [((3, 3), TileVal.unknown)]⟩

/-- C6 witness: a concrete collision map with an unknown cell, placed in
the obstacle set. -/
theorem unknown_is_blocked_c6_witness :
    alLookup c6Data.collision_map (3, 3) = some TileVal.unknown ∧
    ((3, 3) : Pos) ∈ obstaclesOf c6Data :=
  ⟨by decide, unknown_is_blocked_c6 c6Data (3, 3) (by decide)⟩

/-- C7 counterexample: the claim's tie-breaking rule fails.  On the
4-by-4 obstacle-free grid from (2, 2) to (1, 1), the code pops the
equal-f frontier entry with the smaller x first (heap tuples compare as
(f, g, x, y)), returning ["left", "up"], while an A* that prefers the
neighbor generated earlier in the fixed Direction order
Up, Down, Left, Right returns ["up", "left"] on the same input. -/
theorem tie_break_c7_counterexample :
    astar_pathfind 20 2 2 1 1 [] 4 4 = some ["left", "up"] ∧
    astarSpecTie 20 2 2 1 1 [] 4 4 = some ["up", "left"] := by
  decide

/-- C7 amended: with start (10, 10), goal (15, 10), empty obstacle set
and bounds containing the window, the planner returns exactly five
rights; ties between equal-priority frontier nodes are broken
deterministically by the lexicographic order of the heap tuples
(f, g, x, y) — not by the Direction order Up, Down, Left, Right. -/
theorem tie_break_c7_amended :
    astar_pathfind 50 10 10 15 10 [] 20 20
      = some ["right", "right", "right", "right", "right"] := by
  decide

/-- C8: for every map bounds and obstacle set the search loop of
`astar_pathfind` terminates — some finite fuel always suffices — and on
a concrete grid whose goal is fully enclosed by blocked tiles it
terminates by exhausting the open set, returning the no-path result `[]`
rather than crashing or looping forever. -/
theorem astar_terminates_c8 :
    (∀ (sx sy gx gy : Int) (obstacles : List Pos) (mapW mapH : Int),
      ∃ n r, astar_pathfind n sx sy gx gy obstacles mapW mapH = some r) ∧
    astar_pathfind 100 0 0 2 2 [(1, 2), (3, 2), (2, 1), (2, 3)] 5 5 = some [] :=
  ⟨fun sx sy gx gy obstacles mapW mapH =>
    astar_terminates sx sy gx gy obstacles mapW mapH, by decide⟩

/-- C9: the run-length summarizer is total and round-trips — expanding
the groups it computes (repeating each direction its stated count, in
order) regenerates any direction sequence over {up, down, left, right}
exactly — and the empty path yields the defined no-movement strings of
`simplify_path` and `format_path_instructions` rather than failing. -/
theorem summarizer_roundtrip_c9 :
    (∀ path : List String, (∀ d ∈ path, d ∈ dirList) →
      expandGroups (groupsLoop path none 0 []) = path) ∧
    simplify_path [] = "No path" ∧
    format_path_instructions [] = "You are at the exit!" := by
  refine ⟨?_, by decide, by decide⟩
  intro path hpath
  have h := groupsLoop_expand path none 0 []
    (fun d hd => mem_dirList_ne_empty (hpath d hd)) (fun c hc => by cases hc)
  simpa [expandGroups] using h

/-- C9 witness: a concrete round trip. -/
theorem summarizer_roundtrip_c9_witness :
    (∀ d ∈ ["up", "up", "right"], d ∈ dirList) ∧
    expandGroups (groupsLoop ["up", "up", "right"] none 0 []) = ["up", "up", "right"] :=
  ⟨by decide, summarizer_roundtrip_c9.1 ["up", "up", "right"] (by decide)⟩

/-- C10: `get_path_to_exit` consults no collision or entity data (it has
no such input) and returns all horizontal moves (right or left) followed
by all vertical moves (down or up), with total length exactly the
Manhattan distance between the two positions — so the grid view's
"PATH TO EXIT" instructions derived from it can cross blocked or
occupied tiles. -/
theorem path_to_exit_c10 (player_x player_y exit_x exit_y : Int) :
    get_path_to_exit player_x player_y exit_x exit_y
      = pathHoriz player_x exit_x ++ pathVert player_y exit_y ∧
    (∀ m ∈ pathHoriz player_x exit_x, m = "right" ∨ m = "left") ∧
    (∀ m ∈ pathVert player_y exit_y, m = "down" ∨ m = "up") ∧
    (get_path_to_exit player_x player_y exit_x exit_y).length
      = manhattan_distance player_x player_y exit_x exit_y := by
  refine ⟨rfl, (pathHoriz_spec player_x exit_x).1, (pathVert_spec player_y exit_y).1, ?_⟩
  unfold get_path_to_exit
  rw [List.length_append, (pathHoriz_spec player_x exit_x).2,
    (pathVert_spec player_y exit_y).2]
  rfl
